import Mathlib

/-!
Verification of the associative knowledge layer of the CLI assistant:
the Superarray record store (`src/quantum/superarray.ts`), the wormhole
relationship graph (`src/quantum/wormhole.ts`) and the variable barrier
controller gate (`src/quantum/vbc.ts`).

Modelling conventions:
* JS `number` is modelled by `ℚ` (the modelled claims are algebraic
  relations over the stored values, not float-rounding facts).
* A JS `Map` is modelled by an insertion-ordered association list
  (`List (String × α)`): `set` replaces in place or appends, iteration
  is list order, which matches JS `Map` iteration order.
* A JS `Set` is modelled by an insertion-ordered duplicate-free list.
* `Date` values are not modelled; the `created`/`lastTraversed`
  timestamps are dropped because no modelled operation reads them.
-/

namespace Cli

/-- JS `Map.prototype.get`: first (only) binding of a key. -/
def mapGet {α : Type} (m : List (String × α)) (k : String) : Option α :=
  match m with
  | [] => none
  | (k', v) :: rest => if k' = k then some v else mapGet rest k

/-- JS `Map.prototype.set`: replace the binding in place, else append. -/
def mapSet {α : Type} (m : List (String × α)) (k : String) (v : α) :
    List (String × α) :=
  match m with
  | [] => [(k, v)]
  | (k', v') :: rest =>
    if k' = k then (k, v) :: rest else (k', v') :: mapSet rest k v

/-- JS `Set.prototype.add`: append the element unless already present. -/
def setAdd (s : List String) (u : String) : List String :=
  if u ∈ s then s else s ++ [u]

/-- JS `new Set(list)` followed by spreading: deduplicate, keeping the
first occurrence of each element (JS `Set` insertion order). -/
def jsSetList (l : List String) : List String := l.foldl setAdd []

/-- Insert `x` into `l` before the first element whose key is `≤ x`'s key.
Helper for `sortByDesc`. -/
def insertByDesc {α : Type} (key : α → ℚ) (x : α) : List α → List α
  | [] => [x]
  | y :: ys => if key y ≤ key x then x :: y :: ys else y :: insertByDesc key x ys

/-- Stable descending sort by a rational key.  Models JS
`arr.sort((a, b) => key(b) - key(a))`: `Array.prototype.sort` is stable,
and any stable descending sort produces the same list. -/
def sortByDesc {α : Type} (key : α → ℚ) : List α → List α
  | [] => []
  | x :: xs => insertByDesc key x (sortByDesc key xs)

/-- JS `x || d` for an optional numeric `x` with default `d`
(`0` is falsy in JS, so it also falls back to the default). -/
def jsOrNat (o : Option ℕ) (d : ℕ) : ℕ :=
  match o with
  | none => d
  | some n => if n = 0 then d else n

/-- JS `x || d` for an optional rational (`0` is falsy). -/
def jsOrQ (o : Option ℚ) (d : ℚ) : ℚ :=
  match o with
  | none => d
  | some x => if x = 0 then d else x

/-- JS `s.includes(sub)`: substring containment test. -/
def strIncludes (s sub : String) : Bool :=
  s.toList.tails.any (fun t => sub.toList.isPrefixOf t)

-- ===========================================================================
-- Superarray memory store (src/quantum/superarray.ts)
-- ===========================================================================

/-- One entry of `EntityDimensions.entities` (`type` and `canonical` are
the only fields the modelled operations read). -/
structure EntityRef where
  type : String
  canonical : String
deriving DecidableEq, Repr

/-- A `MemoryAtom`, flattened to exactly the dimensions that the modelled
operations read.  Field provenance:
`uid` = `identity.uid`, `parent_uid` = `chunking.parent_uid`,
`topic_tags` = `semantic.topic_tags`, `entities` = `entity.entities`,
`intent_type` = `pragmatics.intent_type`,
`causal_links` = `causality.causal_links` (as `(cause, effect)` pairs;
only its length is read), `preconditions`/`effects`/`causal_confidence`
from `causality`, `time_start` = `temporal.time_start` (milliseconds
since the epoch), `actionability` = `actionability.actionability`,
plus the computed `activation_score` and `spin_alignment`. -/
structure MemoryAtom where
  uid : String
  parent_uid : Option String := none
  topic_tags : List String := []
  entities : List EntityRef := []
  intent_type : String := "inform"
  causal_links : List (String × String) := []
  preconditions : List String := []
  effects : List String := []
  causal_confidence : ℚ := 0
  time_start : Option ℚ := none
  actionability : String := "none"
  activation_score : Option ℚ := none
  spin_alignment : Option ℚ := none
deriving DecidableEq, Repr

/-- `SuperarrayMemory`: the atom map and the inverted dimension index. -/
structure SuperarrayMemory where
  atoms : List (String × MemoryAtom) := []
  dimensionIndex : List (String × List String) := []
deriving DecidableEq, Repr

namespace SuperarrayMemory

/-- `addToIndex(key, uid)`. -/
def addToIndex (idx : List (String × List String)) (key uid : String) :
    List (String × List String) :=
  match mapGet idx key with
  | none => mapSet idx key (setAdd [] uid)
  | some s => mapSet idx key (setAdd s uid)

/-- The index keys produced by `indexAtom`, in the order the source emits
them: topic tags, `entity:<type>` per entity, `intent:<intent_type>`,
`has:causality` when any causal link exists, `actionability:<level>`. -/
def indexKeys (atom : MemoryAtom) : List String :=
  atom.topic_tags
    ++ atom.entities.map (fun e => "entity:" ++ e.type)
    ++ ["intent:" ++ atom.intent_type]
    ++ (if atom.causal_links.length > 0 then ["has:causality"] else [])
    ++ ["actionability:" ++ atom.actionability]

/-- `indexAtom(atom)`: add every index key of the atom. -/
def indexAtom (idx : List (String × List String)) (atom : MemoryAtom) :
    List (String × List String) :=
  (indexKeys atom).foldl (fun i k => addToIndex i k atom.uid) idx

/-- `store(atom)`: insert/overwrite by uid, then (re-)index.  Note that
indexing only adds entries, it never retracts old ones. -/
def store (s : SuperarrayMemory) (atom : MemoryAtom) : SuperarrayMemory :=
  { atoms := mapSet s.atoms atom.uid atom
    dimensionIndex := indexAtom s.dimensionIndex atom }

/-- `get(uid)`. -/
def get (s : SuperarrayMemory) (uid : String) : Option MemoryAtom :=
  mapGet s.atoms uid

/-- `all()`: the stored atoms in map-iteration (insertion) order. -/
def all (s : SuperarrayMemory) : List MemoryAtom := s.atoms.map Prod.snd

/-- The uid set of the index entry for `key` (empty when absent). -/
def indexLookup (s : SuperarrayMemory) (key : String) : List String :=
  (mapGet s.dimensionIndex key).getD []

/-- The candidate uid set built by `query`: union of the index entries of
the active dimensions, in first-encounter order (a JS `Set` filled by
iterating the keys in the given order). -/
def candidateUids (s : SuperarrayMemory) (activeDimensions : List String) :
    List String :=
  activeDimensions.foldl
    (fun acc dim =>
      match mapGet s.dimensionIndex dim with
      | none => acc
      | some ids => ids.foldl setAdd acc)
    []

/-- The activation score with the source's `?? 0` default. -/
def scoreOf (a : MemoryAtom) : ℚ := a.activation_score.getD 0

/-- The candidate records of `query`, before sorting: resolve each
candidate uid and keep those meeting the threshold. -/
def candidateRecords (s : SuperarrayMemory) (activeDimensions : List String)
    (threshold : ℚ) : List MemoryAtom :=
  (candidateUids s activeDimensions).filterMap
    (fun uid =>
      match mapGet s.atoms uid with
      | none => none
      | some atom => if threshold ≤ scoreOf atom then some atom else none)

/-- `query(activeDimensions, threshold)`: candidates, filtered by score,
sorted by descending activation score (stable). -/
def query (s : SuperarrayMemory) (activeDimensions : List String)
    (threshold : ℚ) : List MemoryAtom :=
  sortByDesc scoreOf (candidateRecords s activeDimensions threshold)

end SuperarrayMemory

-- ===========================================================================
-- Variable barrier controller (src/quantum/vbc.ts)
-- ===========================================================================

/-- The four tick phases. -/
inductive TickPhase where
  | capture
  | clean
  | bridge
  | commit
deriving DecidableEq, Repr

/-- Per-phase configuration: per-axis cap multipliers and admissible
micro-performers. -/
structure TickConfig where
  capMultipliers : List (String × ℚ)
  admissiblePerformers : List String
deriving DecidableEq, Repr

/-- `TICK_PHASES`. -/
def TICK_PHASES : TickPhase → TickConfig
  | .capture =>
    { capMultipliers :=
        [("semantic", 3/2), ("entity", 13/10), ("temporal", 6/5),
         ("spatial", 6/5), ("pragmatics", 11/10)]
      admissiblePerformers := ["Prototype", "Explore", "Scan", "Observe"] }
  | .clean =>
    { capMultipliers :=
        [("structural", 7/5), ("computational", 13/10), ("aesthetic", 6/5),
         ("epistemic", 11/10)]
      admissiblePerformers := ["Refine", "Edit", "Denoise", "Benchmark"] }
  | .bridge =>
    { capMultipliers :=
        [("relation", 3/2), ("causality", 7/5), ("alignment", 13/10),
         ("epistemic", 6/5)]
      admissiblePerformers := ["Align", "Calibrate", "Normalize", "Attune"] }
  | .commit =>
    { capMultipliers :=
        [("actionability", 8/5), ("alignment", 7/5), ("epistemic", 13/10),
         ("pragmatics", 6/5)]
      admissiblePerformers := ["Commit", "Validate", "Explain", "Choose"] }

/-- A budget axis. -/
structure VBCAxis where
  name : String
  dimensions : List String
  budget : ℚ
  load : ℚ
  decay : ℚ
deriving DecidableEq, Repr

/-- `initializeAxes()`: the six default axes, in insertion order. -/
def initializeAxes : List (String × VBCAxis) :=
  [("semantics",
    { name := "semantics", dimensions := ["semantic", "embedding", "computational"]
      budget := 3/10, load := 0, decay := 17/20 }),
   ("relations",
    { name := "relations", dimensions := ["relation", "causality", "entity"]
      budget := 3/10, load := 0, decay := 17/20 }),
   ("evidence",
    { name := "evidence", dimensions := ["epistemic", "rhetorical", "alignment"]
      budget := 1/4, load := 0, decay := 9/10 }),
   ("context",
    { name := "context", dimensions := ["temporal", "spatial", "chunking"]
      budget := 1/5, load := 0, decay := 9/10 }),
   ("action",
    { name := "action", dimensions := ["actionability", "pragmatics", "structural"]
      budget := 1/4, load := 0, decay := 17/20 }),
   ("affect",
    { name := "affect", dimensions := ["sentiment", "aesthetic"]
      budget := 3/20, load := 0, decay := 19/20 })]

/-- A proposed delta (`direction` is `true` for `'increase'`; the gate
never reads `direction` or `reason`). -/
structure Delta where
  axis : String
  magnitude : ℚ
  direction : Bool := true
  reason : String := ""
deriving DecidableEq, Repr

/-- The VBC kernel state (`currentSpin` is dropped: the gate never reads
it and no modelled claim observes spin state). -/
structure VBCKernel where
  axes : List (String × VBCAxis) := initializeAxes
  maxConcurrentAxes : ℕ := 4
  totalBudget : ℚ := 7/10
  currentPhase : TickPhase := .capture
  tickCount : ℕ := 0
deriving DecidableEq, Repr

/-- Replace the load of the (first) binding of `name` by `load + m`
(the JS code mutates the axis object held in the map). -/
def updateLoad (axes : List (String × VBCAxis)) (name : String) (m : ℚ) :
    List (String × VBCAxis) :=
  match axes with
  | [] => []
  | (k, ax) :: rest =>
    if k = name then (k, { ax with load := ax.load + m }) :: rest
    else (k, ax) :: updateLoad rest name m

/-- The running state of one `gate` call. -/
structure GateAcc where
  admitted : List Delta := []
  throttled : List Delta := []
  deferred : List Delta := []
  totalMovement : ℚ := 0
  activeAxes : List String := []
  axes : List (String × VBCAxis)
deriving DecidableEq, Repr

/-- One iteration of the `gate` loop, exactly as the source orders its
checks: axis lookup (unknown ⇒ skip), axis-budget check, concurrency
check, total-budget check, admission with its three state updates. -/
def gateStep (maxConcurrentAxes : ℕ) (totalBudget : ℚ)
    (capMultipliers : List (String × ℚ)) (acc : GateAcc) (delta : Delta) :
    GateAcc :=
  match mapGet acc.axes delta.axis with
  | none => acc
  | some axis =>
    let effectiveBudget := axis.budget * ((mapGet capMultipliers delta.axis).getD 1)
    let availableBudget := effectiveBudget - axis.load
    if delta.magnitude ≤ availableBudget then
      if maxConcurrentAxes ≤ acc.activeAxes.length ∧ delta.axis ∉ acc.activeAxes then
        { acc with deferred := acc.deferred ++ [delta] }
      else if acc.totalMovement + delta.magnitude ≤ totalBudget then
        { acc with
          admitted := acc.admitted ++ [delta]
          axes := updateLoad acc.axes delta.axis delta.magnitude
          totalMovement := acc.totalMovement + delta.magnitude
          activeAxes := setAdd acc.activeAxes delta.axis }
      else
        { acc with throttled := acc.throttled ++ [delta] }
    else
      { acc with throttled := acc.throttled ++ [delta] }

/-- `gate(proposedDeltas)`: fold the step over the deltas in input order,
starting from empty buckets, zero movement and an empty active set. -/
def gate (k : VBCKernel) (deltas : List Delta) : GateAcc :=
  deltas.foldl
    (gateStep k.maxConcurrentAxes k.totalBudget
      (TICK_PHASES k.currentPhase).capMultipliers)
    { axes := k.axes }

/-- Written from the claim text of C1 (spec §4.3 admission steps 1–6),
independently of `gateStep`: a delta with an unregistered axis changes
nothing; otherwise, with `effective_budget` = budget × phase multiplier
and `available` = effective_budget − load, the delta is throttled when
its magnitude exceeds `available`, else deferred when it would activate
a new axis while the active set already has `max_concurrent_axes`
members, else throttled when the running admitted total plus the
magnitude would exceed `total_budget`, else admitted (its magnitude is
added to the axis load and the running total, its axis to the active
set). -/
def gateStepSpec (maxConcurrentAxes : ℕ) (totalBudget : ℚ)
    (capMultipliers : List (String × ℚ)) (acc : GateAcc) (delta : Delta) :
    GateAcc :=
  match mapGet acc.axes delta.axis with
  | none => acc
  | some axis =>
    let effectiveBudget := axis.budget * ((mapGet capMultipliers delta.axis).getD 1)
    let available := effectiveBudget - axis.load
    if available < delta.magnitude then
      { acc with throttled := acc.throttled ++ [delta] }
    else if delta.axis ∉ acc.activeAxes ∧ maxConcurrentAxes ≤ acc.activeAxes.length then
      { acc with deferred := acc.deferred ++ [delta] }
    else if totalBudget < acc.totalMovement + delta.magnitude then
      { acc with throttled := acc.throttled ++ [delta] }
    else
      { acc with
        admitted := acc.admitted ++ [delta]
        axes := updateLoad acc.axes delta.axis delta.magnitude
        totalMovement := acc.totalMovement + delta.magnitude
        activeAxes := setAdd acc.activeAxes delta.axis }

-- ===========================================================================
-- Wormhole network (src/quantum/wormhole.ts)
-- ===========================================================================

/-- The ten wormhole types. -/
inductive WormholeType where
  | semantic
  | temporal
  | causal
  | entity
  | pattern
  | contrast
  | analogy
  | hierarchical
  | surprise
  | resonance
deriving DecidableEq, Repr

/-- `WormholeMetadata` (the optional `customData` is dropped: never read). -/
structure WormholeMetadata where
  reason : String
  confidence : ℚ
  tags : List String
deriving DecidableEq, Repr

/-- A wormhole edge.  `from`/`to` become `fromUid`/`toUid` (`from` is a
Lean keyword).  The `created`/`lastTraversed` timestamps and the
optional `condition` are dropped: no modelled operation reads them
(conditions are never evaluated by the source's navigation code). -/
structure Wormhole where
  fromUid : String
  toUid : String
  type : WormholeType
  strength : ℚ
  bidirectional : Bool
  metadata : WormholeMetadata
  traversalCount : ℕ := 0
deriving DecidableEq, Repr

/-- The adjacency structure `wormholes: Map<string, Wormhole[]>`. -/
abbrev WormholeMap := List (String × List Wormhole)

/-- `getWormholes(fromUid)` without a type filter. -/
def getWormholes (net : WormholeMap) (fromUid : String) : List Wormhole :=
  (mapGet net fromUid).getD []

/-- Append a wormhole to the adjacency list of its source uid. -/
def pushWormhole (net : WormholeMap) (w : Wormhole) : WormholeMap :=
  mapSet net w.fromUid (getWormholes net w.fromUid ++ [w])

/-- `createWormhole(wormhole)`: reset the traversal count, append the
forward edge, and append the mirrored edge when bidirectional. -/
def createWormhole (net : WormholeMap) (w : Wormhole) : WormholeMap :=
  let fullWormhole := { w with traversalCount := 0 }
  let net1 := pushWormhole net fullWormhole
  if fullWormhole.bidirectional then
    pushWormhole net1
      { fullWormhole with
        fromUid := fullWormhole.toUid, toUid := fullWormhole.fromUid }
  else net1

/-- `discoverSemanticWormhole(atomA, atomB)`: a bidirectional edge when
the (deduplicated) tag sets share at least two tags; strength is
`|intersection| / max(|tagsA|, |tagsB|)`. -/
def discoverSemanticWormhole (net : WormholeMap) (atomA atomB : MemoryAtom) :
    WormholeMap :=
  let tagsA := jsSetList atomA.topic_tags
  let tagsB := jsSetList atomB.topic_tags
  let intersection := tagsA.filter (fun tag => tag ∈ tagsB)
  if 2 ≤ intersection.length then
    let strength : ℚ := intersection.length / max tagsA.length tagsB.length
    createWormhole net
      { fromUid := atomA.uid, toUid := atomB.uid
        type := .semantic, strength := strength, bidirectional := true
        metadata :=
          { reason := "Shared topics: " ++ String.intercalate ", " intersection
            confidence := strength, tags := intersection } }
  else net

/-- `discoverTemporalWormhole(atomA, atomB)`: a one-directional edge when
both time stamps exist and are less than 24 hours apart; strength is
`max 0 (1 − hoursDiff/24)`.  (The source interpolates the numeric hour
difference into the reason string; the number formatting is not
modelled, no claim reads discovery reason strings.) -/
def discoverTemporalWormhole (net : WormholeMap) (atomA atomB : MemoryAtom) :
    WormholeMap :=
  match atomA.time_start, atomB.time_start with
  | some timeA, some timeB =>
    let diffMs := |timeA - timeB|
    let hoursDiff := diffMs / (1000 * 60 * 60)
    if hoursDiff < 24 then
      let strength := max 0 (1 - hoursDiff / 24)
      createWormhole net
        { fromUid := atomA.uid, toUid := atomB.uid
          type := .temporal, strength := strength, bidirectional := false
          metadata :=
            { reason := "Temporal proximity", confidence := strength
              tags := ["time-sequence"] } }
    else net
  | _, _ => net

/-- `discoverCausalWormhole(atomA, atomB)`: a one-directional edge when
some effect of A lexically contains or is contained in some
precondition of B; strength is `causal_confidence × 0.8`. -/
def discoverCausalWormhole (net : WormholeMap) (atomA atomB : MemoryAtom) :
    WormholeMap :=
  let matchedEffects := atomA.effects.filter
    (fun effect => atomB.preconditions.any
      (fun pre => strIncludes pre effect || strIncludes effect pre))
  if 0 < matchedEffects.length then
    let strength := atomA.causal_confidence * (4/5)
    createWormhole net
      { fromUid := atomA.uid, toUid := atomB.uid
        type := .causal, strength := strength, bidirectional := false
        metadata :=
          { reason := "Causal chain: " ++ String.intercalate ", " matchedEffects
            confidence := strength, tags := ["cause-effect"] } }
  else net

/-- `discoverEntityWormhole(atomA, atomB)`: a bidirectional edge when the
canonical entity sets intersect; strength is
`|shared| / max(|entitiesA|, |entitiesB|)`. -/
def discoverEntityWormhole (net : WormholeMap) (atomA atomB : MemoryAtom) :
    WormholeMap :=
  let entitiesA := jsSetList (atomA.entities.map (fun e => e.canonical))
  let entitiesB := jsSetList (atomB.entities.map (fun e => e.canonical))
  let sharedEntities := entitiesA.filter (fun e => e ∈ entitiesB)
  if 0 < sharedEntities.length then
    let strength : ℚ := sharedEntities.length / max entitiesA.length entitiesB.length
    createWormhole net
      { fromUid := atomA.uid, toUid := atomB.uid
        type := .entity, strength := strength, bidirectional := true
        metadata :=
          { reason := "Shared entities: " ++ String.intercalate ", " sharedEntities
            confidence := strength, tags := sharedEntities } }
  else net

/-- `discoverHierarchicalWormhole(atomA, atomB)`: a one-directional edge
of strength 1.0 when B's `parent_uid` equals A's `uid`.  Note the check
is orientation-sensitive: only `atomB`'s parent is compared with
`atomA`'s uid. -/
def discoverHierarchicalWormhole (net : WormholeMap) (atomA atomB : MemoryAtom) :
    WormholeMap :=
  if atomB.parent_uid = some atomA.uid then
    createWormhole net
      { fromUid := atomA.uid, toUid := atomB.uid
        type := .hierarchical, strength := 1, bidirectional := false
        metadata :=
          { reason := "Parent-child hierarchy", confidence := 1
            tags := ["hierarchy", "parent-child"] } }
  else net

/-- One iteration of the discovery double loop: the five heuristics in
source order on the ordered pair `(atomA, atomB)`. -/
def discoverPair (net : WormholeMap) (atomA atomB : MemoryAtom) : WormholeMap :=
  discoverHierarchicalWormhole
    (discoverEntityWormhole
      (discoverCausalWormhole
        (discoverTemporalWormhole
          (discoverSemanticWormhole net atomA atomB) atomA atomB)
        atomA atomB)
      atomA atomB)
    atomA atomB

/-- The double loop `for i; for j > i` of `discoverWormholes`, expressed
structurally: process the head against every later atom, then recurse
on the tail. -/
def discoverLoop (net : WormholeMap) : List MemoryAtom → WormholeMap
  | [] => net
  | atomA :: rest =>
    discoverLoop (rest.foldl (fun n atomB => discoverPair n atomA atomB) net) rest

/-- `discoverWormholes()`: run the pairwise scan over `memory.all()`.
The constructor runs it on an empty adjacency map. -/
def discoverWormholes (net : WormholeMap) (memory : SuperarrayMemory) :
    WormholeMap :=
  discoverLoop net memory.all

-- ===========================================================================
-- Navigation (src/quantum/wormhole.ts, lines 303-680)
-- ===========================================================================

/-- The navigation strategies. -/
inductive NavigationStrategy where
  | breadth_first
  | depth_first
  | best_first
  | random_walk
  | guided
  | surprise
  | temporal
  | causal
deriving DecidableEq, Repr

/-- The spin vector's fields are never read by navigation (only its
presence is tested by the guided strategy), so it is modelled opaquely. -/
abbrev SpinVector := Unit

/-- `NavigationOptions` (`activeDimensions` and `timeConstraint` are
dropped: the source stores them in the context but never reads them). -/
structure NavigationOptions where
  spinVector : Option SpinVector := none
  maxDepth : Option ℕ := none
  maxSteps : Option ℕ := none
deriving DecidableEq, Repr

/-- The parts of `NavigationContext` the strategies read. -/
structure NavigationContext where
  currentAtom : MemoryAtom
  spinVector : Option SpinVector
  visitedAtoms : List String
  maxDepth : ℕ
  currentDepth : ℕ
deriving DecidableEq, Repr

/-- A recorded surprise. -/
structure Surprise where
  atom : MemoryAtom
  reason : String
  unexpectedness : ℚ
  wormhole : Wormhole
deriving DecidableEq, Repr

/-- A navigation result. -/
structure NavigationResult where
  path : List MemoryAtom
  wormholes : List Wormhole
  totalStrength : ℚ
  insights : List String
  surprises : List Surprise
deriving DecidableEq, Repr

/-- Sum of the strengths of the used wormholes
(`wormholesUsed.reduce((sum, w) => sum + w.strength, 0)`). -/
def totalStrengthOf (ws : List Wormhole) : ℚ :=
  (ws.map (fun w => w.strength)).sum

/-- The state of the breadth-first loop. -/
structure BfsState where
  path : List MemoryAtom
  used : List Wormhole
  visited : List String
  queue : List (String × ℕ)
deriving Repr

/-- One iteration of the breadth-first inner `for` loop: skip visited or
unresolvable destinations, otherwise push the destination onto the
path, mark it visited and enqueue it one level deeper. -/
def bfsStep (memory : SuperarrayMemory) (depth : ℕ) (s : BfsState)
    (w : Wormhole) : BfsState :=
  if w.toUid ∈ s.visited then s
  else
    match memory.get w.toUid with
    | none => s
    | some destAtom =>
      { path := s.path ++ [destAtom]
        used := s.used ++ [w]
        visited := s.visited ++ [w.toUid]
        queue := s.queue ++ [(w.toUid, depth + 1)] }

/-- The body of the breadth-first `for` loop over the wormholes of the
dequeued node: push every unvisited, resolvable destination (note: no
re-check of the step bound inside this loop). -/
def bfsExpand (memory : SuperarrayMemory) (depth : ℕ) (st : BfsState)
    (ws : List Wormhole) : BfsState :=
  ws.foldl (bfsStep memory depth) st

/-- The breadth-first `while` loop.  `fuel` only forces termination: each
iteration dequeues one entry, entries are enqueued at most once per
distinct stored uid, so `memory.atoms.length + 1` iterations always
suffice and the fuel never cuts a run short. -/
def bfsLoop (net : WormholeMap) (memory : SuperarrayMemory)
    (maxSteps maxDepth : ℕ) : ℕ → BfsState → BfsState
  | 0, st => st
  | fuel + 1, st =>
    match st.queue with
    | [] => st
    | (uid, depth) :: queueRest =>
      if maxSteps ≤ st.path.length then st
      else if maxDepth ≤ depth then
        bfsLoop net memory maxSteps maxDepth fuel { st with queue := queueRest }
      else
        bfsLoop net memory maxSteps maxDepth fuel
          (bfsExpand memory depth { st with queue := queueRest }
            (getWormholes net uid))

/-- `breadthFirstNavigation(context, options)`. -/
def breadthFirstNavigation (net : WormholeMap) (memory : SuperarrayMemory)
    (context : NavigationContext) (options : NavigationOptions) :
    NavigationResult :=
  let maxSteps := jsOrNat options.maxSteps 20
  let startUid := context.currentAtom.uid
  let final := bfsLoop net memory maxSteps context.maxDepth
    (memory.atoms.length + 1)
    { path := [context.currentAtom], used := [], visited := context.visitedAtoms
      queue := [(startUid, 0)] }
  { path := final.path
    wormholes := final.used
    totalStrength := totalStrengthOf final.used
    insights :=
      ["Explored " ++ toString final.path.length ++ " atoms breadth-first"]
    surprises := [] }

/-- The state of the depth-first recursion. -/
structure DfsState where
  path : List MemoryAtom
  used : List Wormhole
  visited : List String
deriving Repr

/-- The recursive `dfs(uid, depth)` helper.  The source recursion has
depth at most `maxDepth` (every call with `depth ≥ maxDepth` returns
immediately), so `fuel = maxDepth + 1 − depth` fully reproduces it:
fuel running out coincides with `depth ≥ maxDepth`. -/
def dfsGo (net : WormholeMap) (memory : SuperarrayMemory)
    (maxSteps maxDepth : ℕ) : ℕ → String → ℕ → DfsState → DfsState
  | 0, _, _, st => st
  | fuel + 1, uid, depth, st =>
    if maxDepth ≤ depth ∨ maxSteps ≤ st.path.length then st
    else
      match memory.get uid with
      | none => st
      | some atom =>
        if uid ∈ st.visited then st
        else
          let st1 : DfsState :=
            { path := st.path ++ [atom], used := st.used
              visited := st.visited ++ [uid] }
          (sortByDesc (fun w => w.strength) (getWormholes net uid)).foldl
            (fun s w =>
              if w.toUid ∈ s.visited then s
              else dfsGo net memory maxSteps maxDepth fuel w.toUid (depth + 1)
                { s with used := s.used ++ [w] })
            st1

/-- `depthFirstNavigation(context, options)`.  The context arrives with
the start uid already in `visitedAtoms`, which makes the very first
`dfs` call return immediately (see claim C3). -/
def depthFirstNavigation (net : WormholeMap) (memory : SuperarrayMemory)
    (context : NavigationContext) (options : NavigationOptions) :
    NavigationResult :=
  let maxSteps := jsOrNat options.maxSteps 20
  let final := dfsGo net memory maxSteps context.maxDepth
    (context.maxDepth + 1) context.currentAtom.uid 0
    { path := [], used := [], visited := context.visitedAtoms }
  { path := final.path
    wormholes := final.used
    totalStrength := totalStrengthOf final.used
    insights :=
      ["Explored " ++ toString final.path.length ++ " atoms depth-first"]
    surprises := [] }

/-- The candidate edges of one step of the single-step strategies: the
wormholes of the current node whose type matches the filter (type
filtering only for the temporal/causal strategies) and whose target is
unvisited. -/
def selCandidates (net : WormholeMap) (typeFilter : Option WormholeType)
    (visited : List String) (currentUid : String) : List Wormhole :=
  (getWormholes net currentUid).filter
    (fun w =>
      (match typeFilter with
       | none => true
       | some t => decide (w.type = t))
      && decide (w.toUid ∉ visited))

/-- The shared single-step loop of the best-first, random-walk, guided,
surprise, temporal and causal strategies (spec §9 describes them as one
loop shape with a pluggable next-edge selector).  Per step: take the
unvisited (and, for the type-filtered strategies, type-matching)
wormholes of the current node, apply the selector, stop when it yields
nothing, resolve the destination (stop when missing), then extend the
path, mark the destination visited and move there.  `depthLimited` is
true only for best-first, which additionally checks
`currentDepth < maxDepth` and increments `currentDepth` per step.
`steps` collects `(wormhole, destAtom)` per step, from which each
strategy's `path`/`wormholes`/`surprises` lists are read off.  `fuel`
only forces termination: each iteration grows the path by one and the
loop requires `path.length < maxSteps`, so `maxSteps` iterations always
suffice. -/
def selLoop (net : WormholeMap) (memory : SuperarrayMemory)
    (sel : ℕ → List Wormhole → Option Wormhole)
    (typeFilter : Option WormholeType) (depthLimited : Bool)
    (maxSteps maxDepth : ℕ) :
    ℕ → String → List String → List (Wormhole × MemoryAtom) → ℕ →
    List (Wormhole × MemoryAtom)
  | 0, _, _, steps, _ => steps
  | fuel + 1, currentUid, visited, steps, stepIdx =>
    if maxSteps ≤ 1 + steps.length then steps
    else if depthLimited ∧ maxDepth ≤ stepIdx then steps
    else
      match sel stepIdx (selCandidates net typeFilter visited currentUid) with
      | none => steps
      | some w =>
        match memory.get w.toUid with
        | none => steps
        | some destAtom =>
          selLoop net memory sel typeFilter depthLimited maxSteps maxDepth
            fuel w.toUid (visited ++ [w.toUid]) (steps ++ [(w, destAtom)])
            (stepIdx + 1)

/-- Package the steps of `selLoop` as a `NavigationResult`:
`path = [start, dest₁, dest₂, …]`, `wormholes` the used edges. -/
def stepsResult (context : NavigationContext)
    (steps : List (Wormhole × MemoryAtom)) (insight : String)
    (surprises : List Surprise) : NavigationResult :=
  { path := context.currentAtom :: steps.map (fun s => s.2)
    wormholes := steps.map (fun s => s.1)
    totalStrength := totalStrengthOf (steps.map (fun s => s.1))
    insights := [insight]
    surprises := surprises }

/-- `bestFirstNavigation`: follow the strongest unvisited edge
(descending stable sort by strength, take the head). -/
def bestFirstNavigation (net : WormholeMap) (memory : SuperarrayMemory)
    (context : NavigationContext) (options : NavigationOptions) :
    NavigationResult :=
  let maxSteps := jsOrNat options.maxSteps 20
  let steps := selLoop net memory
    (fun _ cands => (sortByDesc (fun w => w.strength) cands).head?)
    none true maxSteps context.maxDepth maxSteps
    context.currentAtom.uid context.visitedAtoms [] context.currentDepth
  stepsResult context steps
    ("Followed " ++ toString (1 + steps.length) ++ " strongest connections") []

/-- `randomWalkNavigation`: `wormholes[Math.floor(Math.random() *
wormholes.length)]`, modelled by an oracle `rands` reduced modulo the
candidate count (any sequence of draws is a possible run). -/
def randomWalkNavigation (rands : ℕ → ℕ) (net : WormholeMap)
    (memory : SuperarrayMemory) (context : NavigationContext)
    (options : NavigationOptions) : NavigationResult :=
  let maxSteps := jsOrNat options.maxSteps 20
  let steps := selLoop net memory
    (fun stepIdx cands => cands.get? (rands stepIdx % cands.length))
    none false maxSteps context.maxDepth maxSteps
    context.currentAtom.uid context.visitedAtoms [] 0
  stepsResult context steps
    ("Random walk through " ++ toString (1 + steps.length) ++ " atoms") []

/-- The guided score of a candidate edge:
`strength·0.5 + spin_alignment·0.5`, where the destination's
`spin_alignment` defaults to 0.5 via JS `||` (so an explicit 0 also
falls back), and an unresolvable destination scores 0. -/
def guidedScore (memory : SuperarrayMemory) (w : Wormhole) : ℚ :=
  match memory.get w.toUid with
  | none => 0
  | some destAtom => w.strength * (1/2) + jsOrQ destAtom.spin_alignment (1/2) * (1/2)

/-- `guidedNavigation`: with no spin vector the source pushes a fallback
insight onto a local list that it then discards and returns the
best-first result unchanged; with a spin vector it follows the
highest-`guidedScore` candidate (stable sort, take the head). -/
def guidedNavigation (net : WormholeMap) (memory : SuperarrayMemory)
    (context : NavigationContext) (options : NavigationOptions) :
    NavigationResult :=
  match context.spinVector with
  | none => bestFirstNavigation net memory context options
  | some _ =>
    let maxSteps := jsOrNat options.maxSteps 20
    let steps := selLoop net memory
      (fun _ cands => (sortByDesc (guidedScore memory) cands).head?)
      none false maxSteps context.maxDepth maxSteps
      context.currentAtom.uid context.visitedAtoms [] 0
    stepsResult context steps
      ("Guided navigation through " ++ toString (1 + steps.length)
        ++ " atoms using spin vector") []

/-- The unexpectedness of an edge: `1 − min(1, traversalCount/10)`. -/
def unexpectednessOf (w : Wormhole) : ℚ :=
  1 - min 1 ((w.traversalCount : ℚ) / 10)

/-- The surprise score of a candidate edge as the source computes it:
`(1 − strength)·0.4 + unexpectedness·0.4 + typeBonus`, with
`typeBonus = 0.3` for contrast/surprise/analogy edges and 0 otherwise
(the bonus is added as-is, not scaled). -/
def surpriseScore (w : Wormhole) : ℚ :=
  let typeBonus : ℚ :=
    if w.type = .contrast ∨ w.type = .surprise ∨ w.type = .analogy
    then 3/10 else 0
  (1 - w.strength) * (2/5) + unexpectednessOf w * (2/5) + typeBonus

/-- The selector of the surprise strategy: stable descending sort by
`surpriseScore`, take the head. -/
def surprisePick (cands : List Wormhole) : Option Wormhole :=
  (sortByDesc surpriseScore cands).head?

/-- `surpriseNavigation`: follow the `surprisePick` choice and record
each step as a `Surprise` carrying the destination, the edge's reason
and its unexpectedness. -/
def surpriseNavigation (net : WormholeMap) (memory : SuperarrayMemory)
    (context : NavigationContext) (options : NavigationOptions) :
    NavigationResult :=
  let maxSteps := jsOrNat options.maxSteps 20
  let steps := selLoop net memory (fun _ cands => surprisePick cands)
    none false maxSteps context.maxDepth maxSteps
    context.currentAtom.uid context.visitedAtoms [] 0
  let surprises := steps.map
    (fun s =>
      { atom := s.2, reason := s.1.metadata.reason
        unexpectedness := unexpectednessOf s.1, wormhole := s.1 })
  stepsResult context steps
    ("Found " ++ toString surprises.length ++ " surprising connections")
    surprises

/-- `typeFilteredNavigation`: best-first restricted to one edge type
(and without best-first's depth check, as in the source). -/
def typeFilteredNavigation (net : WormholeMap) (memory : SuperarrayMemory)
    (context : NavigationContext) (options : NavigationOptions)
    (type : WormholeType) : NavigationResult :=
  let maxSteps := jsOrNat options.maxSteps 20
  let steps := selLoop net memory
    (fun _ cands => (sortByDesc (fun w => w.strength) cands).head?)
    (some type) false maxSteps context.maxDepth maxSteps
    context.currentAtom.uid context.visitedAtoms [] 0
  stepsResult context steps
    ("Followed chain through " ++ toString (1 + steps.length) ++ " atoms") []

/-- `navigate(startUid, strategy, options)`: resolve the start atom
(missing ⇒ empty result with a diagnostic note), build the context with
the start uid pre-marked visited, and dispatch on the strategy. -/
def navigate (rands : ℕ → ℕ) (net : WormholeMap) (memory : SuperarrayMemory)
    (startUid : String) (strategy : NavigationStrategy)
    (options : NavigationOptions) : NavigationResult :=
  match memory.get startUid with
  | none =>
    { path := [], wormholes := [], totalStrength := 0
      insights := ["Start atom not found"], surprises := [] }
  | some startAtom =>
    let context : NavigationContext :=
      { currentAtom := startAtom
        spinVector := options.spinVector
        visitedAtoms := [startUid]
        maxDepth := jsOrNat options.maxDepth 10
        currentDepth := 0 }
    match strategy with
    | .breadth_first => breadthFirstNavigation net memory context options
    | .depth_first => depthFirstNavigation net memory context options
    | .best_first => bestFirstNavigation net memory context options
    | .random_walk => randomWalkNavigation rands net memory context options
    | .guided => guidedNavigation net memory context options
    | .surprise => surpriseNavigation net memory context options
    | .temporal => typeFilteredNavigation net memory context options .temporal
    | .causal => typeFilteredNavigation net memory context options .causal

-- ===========================================================================
-- Derived quantities and spec-side definitions used by the claims
-- ===========================================================================

/-- Sum of the magnitudes of a list of deltas. -/
def admittedSum (l : List Delta) : ℚ := (l.map (fun d => d.magnitude)).sum

/-- Sum of the magnitudes of the deltas on one axis. -/
def admittedSumOn (name : String) (l : List Delta) : ℚ :=
  ((l.filter (fun d => d.axis == name)).map (fun d => d.magnitude)).sum

/-- The load of the named axis (0 when the axis is unregistered). -/
def loadOf (axes : List (String × VBCAxis)) (name : String) : ℚ :=
  ((mapGet axes name).map (fun ax => ax.load)).getD 0

/-- The surprise score as the amended claim C7 words it:
`0.4·(1−strength) + 0.4·(1−min(1, traversal_count/10)) + bonus` with
`bonus = 0.3` for contrast/surprise/analogy edges and `0` otherwise
(the bonus is added directly). -/
def surpriseScoreSpec (w : Wormhole) : ℚ :=
  (4/10) * (1 - w.strength)
    + (4/10) * (1 - min 1 ((w.traversalCount : ℚ) / 10))
    + (if w.type = .contrast ∨ w.type = .surprise ∨ w.type = .analogy
       then 3/10 else 0)

/-- The surprise score exactly as claim C7 states it:
`0.4·(1−strength) + 0.4·(1−min(1, traversal_count/10)) + 0.3·bonus`,
where `bonus = 0.3` for contrast/surprise/analogy edges and `0`
otherwise. -/
def claimSurpriseScore (w : Wormhole) : ℚ :=
  (4/10) * (1 - w.strength)
    + (4/10) * (1 - min 1 ((w.traversalCount : ℚ) / 10))
    + (3/10) *
      (if w.type = .contrast ∨ w.type = .surprise ∨ w.type = .analogy
       then 3/10 else 0)

-- ===========================================================================
-- Concrete instances used by counterexamples, failing inputs and witnesses
-- ===========================================================================

/-- A minimal atom with the given uid. -/
def bareAtom (uid : String) : MemoryAtom := { uid := uid }

/-- A plain semantic test edge of strength 1/2. -/
def plainEdge (f t : String) : Wormhole :=
  { fromUid := f, toUid := t, type := .semantic, strength := 1/2
    bidirectional := false
    metadata := { reason := "", confidence := 1/2, tags := [] } }

/-- A store holding the four atoms `s`, `a`, `b`, `c`. -/
def memFour : SuperarrayMemory :=
  (((({} : SuperarrayMemory).store (bareAtom "s")).store
    (bareAtom "a")).store (bareAtom "b")).store (bareAtom "c")

/-- A star graph: three edges from `s` to `a`, `b` and `c`. -/
def starNet : WormholeMap :=
  [("s", [plainEdge "s" "a", plainEdge "s" "b", plainEdge "s" "c"])]

/-- A store holding only the atom `s`. -/
def memSingle : SuperarrayMemory := ({} : SuperarrayMemory).store (bareAtom "s")

/-- Tie-break example: record `a`, indexed under tag `ka`, score 1/2. -/
def tieAtomA : MemoryAtom :=
  { uid := "a", topic_tags := ["ka"], activation_score := some (1/2) }

/-- Tie-break example: record `b`, indexed under tag `kb`, score 1/2. -/
def tieAtomB : MemoryAtom :=
  { uid := "b", topic_tags := ["kb"], activation_score := some (1/2) }

/-- Tie-break example store: `a` inserted before `b`. -/
def memTie : SuperarrayMemory :=
  (({} : SuperarrayMemory).store tieAtomA).store tieAtomB

/-- Hierarchy example: a child whose `parent_uid` is `p`. -/
def childAtom : MemoryAtom := { uid := "c", parent_uid := some "p" }

/-- Hierarchy example: the parent. -/
def parentAtom : MemoryAtom := { uid := "p" }

/-- Hierarchy example store with the child inserted before the parent. -/
def memChildFirst : SuperarrayMemory :=
  (({} : SuperarrayMemory).store childAtom).store parentAtom

/-- Hierarchy example store with the parent inserted before the child. -/
def memParentFirst : SuperarrayMemory :=
  (({} : SuperarrayMemory).store parentAtom).store childAtom

/-- Surprise example: a strong contrast edge `s → a`. -/
def contrastEdge : Wormhole :=
  { fromUid := "s", toUid := "a", type := .contrast, strength := 9/10
    bidirectional := false
    metadata := { reason := "r1", confidence := 1, tags := [] } }

/-- Surprise example: a weaker semantic edge `s → b`. -/
def semanticEdge : Wormhole :=
  { fromUid := "s", toUid := "b", type := .semantic, strength := 1/2
    bidirectional := false
    metadata := { reason := "r2", confidence := 1, tags := [] } }

/-- Surprise example network: both edges leave `s`. -/
def surpriseNet : WormholeMap := [("s", [contrastEdge, semanticEdge])]

/-- Surprise example store: the atoms `s`, `a`, `b`. -/
def memThree : SuperarrayMemory :=
  ((({} : SuperarrayMemory).store (bareAtom "s")).store
    (bareAtom "a")).store (bareAtom "b")

/-- A delta with negative magnitude on the registered axis `semantics`. -/
def negDelta : Delta := { axis := "semantics", magnitude := -(1/10) }

-- ===========================================================================
-- Helper lemmas: maps, sets, sorting
-- ===========================================================================

theorem mapGet_mapSet {α : Type} (m : List (String × α)) (k u : String) (v : α) :
    mapGet (mapSet m k v) u = if k = u then some v else mapGet m u := by
  induction m with
  | nil => simp [mapSet, mapGet]
  | cons hd tl ih =>
    obtain ⟨k', v'⟩ := hd
    by_cases hk : k' = k
    · subst hk
      by_cases hu : k' = u <;> simp [mapSet, mapGet, hu]
    · by_cases hu : k' = u
      · subst hu
        have : ¬ k = k' := fun h => hk h.symm
        simp [mapSet, mapGet, hk, this]
      · simp [mapSet, mapGet, hk, hu, ih]

theorem mem_setAdd {s : List String} {u x : String} :
    x ∈ setAdd s u ↔ x ∈ s ∨ x = u := by
  by_cases h : u ∈ s
  · simp only [setAdd, if_pos h]
    constructor
    · exact Or.inl
    · rintro (hx | rfl)
      · exact hx
      · exact h
  · simp [setAdd, h]

theorem mem_foldl_setAdd (ids : List String) :
    ∀ (acc : List String) (x : String),
      x ∈ ids.foldl setAdd acc ↔ x ∈ acc ∨ x ∈ ids := by
  induction ids with
  | nil => simp
  | cons i ids ih =>
    intro acc x
    simp only [List.foldl_cons, ih, mem_setAdd, List.mem_cons]
    tauto

theorem mem_insertByDesc {α : Type} (key : α → ℚ) (x : α) (l : List α) (y : α) :
    y ∈ insertByDesc key x l ↔ y = x ∨ y ∈ l := by
  induction l with
  | nil => simp [insertByDesc]
  | cons z zs ih =>
    simp only [insertByDesc]
    split_ifs
    · simp
    · simp only [List.mem_cons, ih]
      tauto

theorem mem_sortByDesc {α : Type} (key : α → ℚ) (l : List α) (y : α) :
    y ∈ sortByDesc key l ↔ y ∈ l := by
  induction l with
  | nil => simp [sortByDesc]
  | cons x xs ih => simp [sortByDesc, mem_insertByDesc, ih]

theorem pairwise_insertByDesc {α : Type} (key : α → ℚ) (x : α) (l : List α)
    (h : l.Pairwise (fun a b => key b ≤ key a)) :
    (insertByDesc key x l).Pairwise (fun a b => key b ≤ key a) := by
  induction l with
  | nil => simp [insertByDesc]
  | cons z zs ih =>
    rw [List.pairwise_cons] at h
    simp only [insertByDesc]
    split_ifs with hz
    · refine List.Pairwise.cons ?_ (List.Pairwise.cons h.1 h.2)
      intro w hw
      rcases List.mem_cons.mp hw with rfl | hw
      · exact hz
      · exact le_trans (h.1 w hw) hz
    · refine List.Pairwise.cons ?_ (ih h.2)
      intro w hw
      rcases (mem_insertByDesc key x zs w).mp hw with rfl | hw
      · exact le_of_not_le hz
      · exact h.1 w hw

theorem pairwise_sortByDesc {α : Type} (key : α → ℚ) (l : List α) :
    (sortByDesc key l).Pairwise (fun a b => key b ≤ key a) := by
  induction l with
  | nil => simp [sortByDesc]
  | cons x xs ih => exact pairwise_insertByDesc key x _ ih

theorem sortByDesc_head_max {α : Type} (key : α → ℚ) (l : List α) (w : α)
    (h : (sortByDesc key l).head? = some w) :
    w ∈ l ∧ ∀ y ∈ l, key y ≤ key w := by
  match hs : sortByDesc key l with
  | [] => rw [hs] at h; simp at h
  | a :: rest =>
    rw [hs] at h
    simp only [List.head?_cons, Option.some.injEq] at h
    subst h
    constructor
    · exact (mem_sortByDesc key l a).mp (by rw [hs]; exact List.mem_cons_self a rest)
    · intro y hy
      have hy' : y ∈ sortByDesc key l := (mem_sortByDesc key l y).mpr hy
      rw [hs] at hy'
      rcases List.mem_cons.mp hy' with rfl | hy''
      · exact le_refl _
      · have hp := pairwise_sortByDesc key l
        rw [hs, List.pairwise_cons] at hp
        exact hp.1 y hy''

theorem filter_insertByDesc {α : Type} (key : α → ℚ) (x : α) (l : List α) (v : ℚ) :
    (insertByDesc key x l).filter (fun a => decide (key a = v))
      = (x :: l).filter (fun a => decide (key a = v)) := by
  induction l with
  | nil => rfl
  | cons y ys ih =>
    simp only [insertByDesc]
    split_ifs with hz
    · rfl
    · have hlt : key x < key y := lt_of_not_le hz
      by_cases hyv : key y = v
      · have hxv : ¬ key x = v := by
          intro hxv
          rw [hxv, ← hyv] at hlt
          exact lt_irrefl _ hlt
        simp [List.filter_cons, hyv, hxv, ih]
      · by_cases hxv : key x = v <;> simp [List.filter_cons, hyv, hxv, ih]

theorem filter_sortByDesc {α : Type} (key : α → ℚ) (l : List α) (v : ℚ) :
    (sortByDesc key l).filter (fun a => decide (key a = v))
      = l.filter (fun a => decide (key a = v)) := by
  induction l with
  | nil => rfl
  | cons x xs ih =>
    simp only [sortByDesc, filter_insertByDesc]
    simp only [List.filter_cons, ih]

theorem mapGet_updateLoad (axes : List (String × VBCAxis)) (name : String)
    (m : ℚ) (u : String) :
    mapGet (updateLoad axes name m) u =
      if u = name
      then (mapGet axes name).map (fun ax => { ax with load := ax.load + m })
      else mapGet axes u := by
  induction axes with
  | nil => by_cases hu : u = name <;> simp [updateLoad, mapGet, hu]
  | cons hd tl ih =>
    obtain ⟨k, ax⟩ := hd
    by_cases hk : k = name
    · by_cases hu : u = name
      · have hku : k = u := by rw [hk, hu]
        simp [updateLoad, mapGet, hk, hu, hku]
      · have hku : ¬ k = u := by
          rw [hk]
          exact fun h => hu h.symm
        have hnu : ¬ name = u := fun h => hu h.symm
        simp [updateLoad, mapGet, hk, hu, hku, hnu]
    · by_cases hku : k = u
      · have hu : ¬ u = name := by
          rw [← hku]
          exact hk
        simp [updateLoad, mapGet, hk, hku, hu]
      · simp [updateLoad, mapGet, hk, hku, ih]

theorem loadOf_updateLoad (axes : List (String × VBCAxis)) (name : String)
    (m : ℚ) (u : String) (hsome : (mapGet axes name).isSome) :
    loadOf (updateLoad axes name m) u
      = loadOf axes u + (if u = name then m else 0) := by
  unfold loadOf
  rw [mapGet_updateLoad]
  split_ifs with hu
  · subst hu
    obtain ⟨ax, hax⟩ := Option.isSome_iff_exists.mp hsome
    simp [hax]
  · simp

theorem admittedSum_append (l : List Delta) (d : Delta) :
    admittedSum (l ++ [d]) = admittedSum l + d.magnitude := by
  simp [admittedSum]

theorem admittedSumOn_append (u : String) (l : List Delta) (d : Delta) :
    admittedSumOn u (l ++ [d])
      = admittedSumOn u l + (if d.axis = u then d.magnitude else 0) := by
  unfold admittedSumOn
  rw [List.filter_append]
  by_cases h : d.axis = u
  · simp [h]
  · simp [h]

-- ===========================================================================
-- C1: gate classification
-- ===========================================================================

/-- C1: for every call to `gate` and every proposed delta, processed in
input order: with `effective_budget` = axis budget × current phase
multiplier and `available` = `effective_budget` − load, the delta is
throttled if its magnitude exceeds `available`; otherwise deferred if it
would activate a new axis while the active set already has
`max_concurrent_axes` members; otherwise throttled if the running
admitted total plus its magnitude would exceed `total_budget`; otherwise
admitted (magnitude added to the axis load and the running total, axis
added to the active set).  A delta naming an unregistered axis appears
in no output list and changes no state.  Formally: the loop body
`gateStep` (over which `gate` is literally a fold) coincides with
`gateStepSpec`, which is written from the claim text. -/
theorem gate_step_matches_claim (maxConcurrentAxes : ℕ) (totalBudget : ℚ)
    (capMultipliers : List (String × ℚ)) (acc : GateAcc) (delta : Delta) :
    gateStep maxConcurrentAxes totalBudget capMultipliers acc delta
      = gateStepSpec maxConcurrentAxes totalBudget capMultipliers acc delta := by
  unfold gateStep gateStepSpec
  cases hax : mapGet acc.axes delta.axis with
  | none => rfl
  | some axis =>
    dsimp only
    split_ifs <;> first
      | rfl
      | (exfalso; tauto)
      | (exfalso; linarith)

-- ===========================================================================
-- C10: default axes never match a phase multiplier key
-- ===========================================================================

/-- C10: under the default construction, for every phase and every
registered axis, the phase's multiplier table has no entry keyed by the
axis's name, so the effective budget `budget × (multiplier ?? 1)`
computed inside `gate` equals the nominal budget. -/
theorem default_axes_unscaled (phase : TickPhase) :
    ∀ e ∈ initializeAxes,
      mapGet (TICK_PHASES phase).capMultipliers e.1 = none
      ∧ e.2.budget * ((mapGet (TICK_PHASES phase).capMultipliers e.1).getD 1)
          = e.2.budget := by
  cases phase <;> with_unfolding_all decide

/-- Witness for C10 at the capture phase and the `semantics` axis. -/
theorem default_axes_unscaled_witness :
    mapGet (TICK_PHASES TickPhase.capture).capMultipliers "semantics" = none
    ∧ (3/10 : ℚ)
        * ((mapGet (TICK_PHASES TickPhase.capture).capMultipliers
            "semantics").getD 1)
      = 3/10 :=
  default_axes_unscaled TickPhase.capture
    ("semantics",
      { name := "semantics"
        dimensions := ["semantic", "embedding", "computational"]
        budget := 3/10, load := 0, decay := 17/20 })
    (by with_unfolding_all decide)

-- ===========================================================================
-- C9: negative magnitudes
-- ===========================================================================

/-- C9 counterexample: the claim says a negative-magnitude delta is never
admitted and never changes a load.  On the default kernel, a delta of
magnitude −1/10 on the `semantics` axis is admitted and drives the
axis's load to −1/10. -/
theorem negative_magnitude_admitted :
    negDelta.magnitude < 0
    ∧ (gate {} [negDelta]).admitted = [negDelta]
    ∧ loadOf (gate {} [negDelta]).axes "semantics" = -(1/10) := by
  with_unfolding_all decide

theorem gateStep_mapGet_isSome (mc : ℕ) (tb : ℚ) (mul : List (String × ℚ))
    (acc : GateAcc) (d : Delta) (u : String) :
    (mapGet (gateStep mc tb mul acc d).axes u).isSome
      = (mapGet acc.axes u).isSome := by
  cases hax : mapGet acc.axes d.axis with
  | none => simp [gateStep, hax]
  | some axis =>
    simp only [gateStep, hax]
    split_ifs <;> try rfl
    rw [mapGet_updateLoad]
    by_cases hu : u = d.axis <;> simp [hu, hax]

theorem gateStep_bucket_count (mc : ℕ) (tb : ℚ) (mul : List (String × ℚ))
    (acc : GateAcc) (d : Delta) :
    (gateStep mc tb mul acc d).admitted.length
      + (gateStep mc tb mul acc d).throttled.length
      + (gateStep mc tb mul acc d).deferred.length
    = acc.admitted.length + acc.throttled.length + acc.deferred.length
      + (if (mapGet acc.axes d.axis).isSome then 1 else 0) := by
  cases hax : mapGet acc.axes d.axis with
  | none => simp [gateStep, hax]
  | some axis =>
    simp only [gateStep, hax, Option.isSome_some, if_true]
    split_ifs <;> simp <;> omega

theorem gate_fold_partition (mc : ℕ) (tb : ℚ) (mul : List (String × ℚ)) :
    ∀ (ds : List Delta) (acc : GateAcc),
      (ds.foldl (gateStep mc tb mul) acc).admitted.length
        + (ds.foldl (gateStep mc tb mul) acc).throttled.length
        + (ds.foldl (gateStep mc tb mul) acc).deferred.length
      = acc.admitted.length + acc.throttled.length + acc.deferred.length
        + (ds.filter (fun d => (mapGet acc.axes d.axis).isSome)).length := by
  intro ds
  induction ds with
  | nil => intro acc; simp
  | cons d ds ih =>
    intro acc
    rw [List.foldl_cons, ih (gateStep mc tb mul acc d)]
    have hfilter :
        ds.filter (fun x => (mapGet (gateStep mc tb mul acc d).axes x.axis).isSome)
          = ds.filter (fun x => (mapGet acc.axes x.axis).isSome) := by
      apply List.filter_congr
      intro x _
      rw [gateStep_mapGet_isSome]
    rw [hfilter]
    have hcount := gateStep_bucket_count mc tb mul acc d
    rw [List.filter_cons]
    split_ifs at hcount ⊢ <;> simp at hcount ⊢ <;> omega

/-- C9 (amended): no gate operation raises — `gate` is a total function
that classifies every delta whose axis is registered (regardless of the
sign of its magnitude) into exactly one of the admitted / throttled /
deferred buckets, and silently drops exactly the deltas with an
unregistered axis.  A negative-magnitude delta is not rejected: it is
classified by the same rules and, when admitted, changes its axis's
load by that (negative) magnitude (see the counterexample). -/
theorem gate_total_partition (k : VBCKernel) (deltas : List Delta) :
    (gate k deltas).admitted.length + (gate k deltas).throttled.length
      + (gate k deltas).deferred.length
    = (deltas.filter (fun d => (mapGet k.axes d.axis).isSome)).length := by
  have h := gate_fold_partition k.maxConcurrentAxes k.totalBudget
    (TICK_PHASES k.currentPhase).capMultipliers deltas { axes := k.axes }
  simpa [gate] using h

-- ===========================================================================
-- C4: gate conservation
-- ===========================================================================

theorem gateStep_inv (mc : ℕ) (tb : ℚ) (mul : List (String × ℚ))
    (axes0 : List (String × VBCAxis)) (acc : GateAcc) (d : Delta)
    (h1 : acc.totalMovement = admittedSum acc.admitted)
    (h2 : acc.totalMovement ≤ tb)
    (h3 : ∀ u, loadOf acc.axes u = loadOf axes0 u + admittedSumOn u acc.admitted) :
    (gateStep mc tb mul acc d).totalMovement
        = admittedSum (gateStep mc tb mul acc d).admitted
    ∧ (gateStep mc tb mul acc d).totalMovement ≤ tb
    ∧ ∀ u, loadOf (gateStep mc tb mul acc d).axes u
        = loadOf axes0 u + admittedSumOn u (gateStep mc tb mul acc d).admitted := by
  unfold gateStep
  cases hax : mapGet acc.axes d.axis with
  | none => exact ⟨h1, h2, h3⟩
  | some axis =>
    dsimp only
    split_ifs with hA hB hC
    · exact ⟨h1, h2, h3⟩
    · refine ⟨?_, hC, ?_⟩
      · dsimp only
        rw [admittedSum_append, h1]
      · intro u
        dsimp only
        rw [loadOf_updateLoad _ _ _ _ (by rw [hax]; rfl), h3 u, admittedSumOn_append]
        by_cases hu : u = d.axis
        · subst hu
          simp
          ring
        · have : ¬ d.axis = u := fun h => hu h.symm
          simp [hu, this]
    · exact ⟨h1, h2, h3⟩
    · exact ⟨h1, h2, h3⟩

theorem gate_fold_inv (mc : ℕ) (tb : ℚ) (mul : List (String × ℚ))
    (axes0 : List (String × VBCAxis)) :
    ∀ (ds : List Delta) (acc : GateAcc),
      acc.totalMovement = admittedSum acc.admitted →
      acc.totalMovement ≤ tb →
      (∀ u, loadOf acc.axes u = loadOf axes0 u + admittedSumOn u acc.admitted) →
      (ds.foldl (gateStep mc tb mul) acc).totalMovement
          = admittedSum (ds.foldl (gateStep mc tb mul) acc).admitted
      ∧ (ds.foldl (gateStep mc tb mul) acc).totalMovement ≤ tb
      ∧ ∀ u, loadOf (ds.foldl (gateStep mc tb mul) acc).axes u
          = loadOf axes0 u
            + admittedSumOn u (ds.foldl (gateStep mc tb mul) acc).admitted := by
  intro ds
  induction ds with
  | nil => intro acc h1 h2 h3; exact ⟨h1, h2, h3⟩
  | cons d ds ih =>
    intro acc h1 h2 h3
    rw [List.foldl_cons]
    obtain ⟨g1, g2, g3⟩ := gateStep_inv mc tb mul axes0 acc d h1 h2 h3
    exact ih (gateStep mc tb mul acc d) g1 g2 g3

/-- C4: for every call to `gate` (with the kernel's non-negative total
budget), the sum of the admitted magnitudes is at most `total_budget`,
and for every axis the load after the call minus the load before equals
the sum of the admitted magnitudes on that axis (axes with no admitted
delta are unchanged). -/
theorem gate_conservation (k : VBCKernel) (deltas : List Delta)
    (htb : 0 ≤ k.totalBudget) :
    admittedSum (gate k deltas).admitted ≤ k.totalBudget
    ∧ ∀ name, loadOf (gate k deltas).axes name
        = loadOf k.axes name + admittedSumOn name (gate k deltas).admitted := by
  have h := gate_fold_inv k.maxConcurrentAxes k.totalBudget
    (TICK_PHASES k.currentPhase).capMultipliers k.axes deltas { axes := k.axes }
    (by simp [admittedSum])
    (by simpa using htb)
    (by intro u; simp [admittedSumOn, admittedSum])
  refine ⟨?_, ?_⟩
  · have h1 : (gate k deltas).totalMovement = admittedSum (gate k deltas).admitted := h.1
    have h2 : (gate k deltas).totalMovement ≤ k.totalBudget := h.2.1
    rw [← h1]
    exact h2
  · exact h.2.2

/-- Witness for C4: one admitted delta of magnitude 1/10 on `semantics`
against the default kernel. -/
theorem gate_conservation_witness :
    admittedSum (gate {} [{ axis := "semantics", magnitude := 1/10 }]).admitted
        ≤ (7 : ℚ)/10
    ∧ loadOf (gate {} [{ axis := "semantics", magnitude := 1/10 }]).axes
          "semantics"
        = loadOf initializeAxes "semantics"
          + admittedSumOn "semantics"
              (gate {} [{ axis := "semantics", magnitude := 1/10 }]).admitted := by
  have h := gate_conservation {} [{ axis := "semantics", magnitude := 1/10 }]
    (by with_unfolding_all decide)
  exact ⟨h.1, h.2 "semantics"⟩

-- ===========================================================================
-- C8: store is add-only on the index
-- ===========================================================================

theorem indexLookup_addToIndex_mono (idx : List (String × List String))
    (key uid k' u : String) (h : u ∈ (mapGet idx k').getD []) :
    u ∈ (mapGet (SuperarrayMemory.addToIndex idx key uid) k').getD [] := by
  unfold SuperarrayMemory.addToIndex
  cases hk : mapGet idx key with
  | none =>
    rw [mapGet_mapSet]
    split_ifs with he
    · subst he
      rw [hk] at h
      simp at h
    · exact h
  | some s =>
    rw [mapGet_mapSet]
    split_ifs with he
    · subst he
      rw [hk] at h
      simp only [Option.getD_some] at h ⊢
      exact mem_setAdd.mpr (Or.inl h)
    · exact h

theorem indexLookup_addToIndex_self (idx : List (String × List String))
    (key uid : String) :
    uid ∈ (mapGet (SuperarrayMemory.addToIndex idx key uid) key).getD [] := by
  unfold SuperarrayMemory.addToIndex
  cases hk : mapGet idx key with
  | none =>
    rw [mapGet_mapSet]
    simp [mem_setAdd]
  | some s =>
    rw [mapGet_mapSet]
    simp [mem_setAdd]

theorem foldl_addToIndex_mono (uid : String) (keys : List String) :
    ∀ (idx : List (String × List String)) (k' u : String),
      u ∈ (mapGet idx k').getD [] →
      u ∈ (mapGet
            (keys.foldl (fun i k => SuperarrayMemory.addToIndex i k uid) idx)
            k').getD [] := by
  induction keys with
  | nil => intro idx k' u h; exact h
  | cons k0 ks ih =>
    intro idx k' u h
    rw [List.foldl_cons]
    exact ih _ _ _ (indexLookup_addToIndex_mono idx k0 uid k' u h)

theorem foldl_addToIndex_self (uid : String) (keys : List String) :
    ∀ (idx : List (String × List String)) (k : String), k ∈ keys →
      uid ∈ (mapGet
              (keys.foldl (fun i k => SuperarrayMemory.addToIndex i k uid) idx)
              k).getD [] := by
  induction keys with
  | nil => intro idx k h; simp at h
  | cons k0 ks ih =>
    intro idx k h
    rw [List.foldl_cons]
    rcases List.mem_cons.mp h with rfl | hks
    · exact foldl_addToIndex_mono uid ks _ _ _
        (indexLookup_addToIndex_self idx k uid)
    · exact ih _ _ hks

/-- C8: `store` is add-only with respect to the index: after storing an
atom (even over an existing uid), `get` returns the newly stored atom,
every previously present key-to-uid index entry is still present, and
the new atom's uid is indexed under every key that `indexAtom` emits
for it. -/
theorem store_addonly (s : SuperarrayMemory) (a : MemoryAtom) :
    (s.store a).get a.uid = some a
    ∧ (∀ k u, u ∈ s.indexLookup k → u ∈ (s.store a).indexLookup k)
    ∧ (∀ k, k ∈ SuperarrayMemory.indexKeys a →
        a.uid ∈ (s.store a).indexLookup k) := by
  refine ⟨?_, ?_, ?_⟩
  · unfold SuperarrayMemory.store SuperarrayMemory.get
    rw [mapGet_mapSet]
    simp
  · intro k u h
    unfold SuperarrayMemory.store SuperarrayMemory.indexLookup
      SuperarrayMemory.indexAtom
    unfold SuperarrayMemory.indexLookup at h
    exact foldl_addToIndex_mono a.uid (SuperarrayMemory.indexKeys a) _ _ _ h
  · intro k hk
    unfold SuperarrayMemory.store SuperarrayMemory.indexLookup
      SuperarrayMemory.indexAtom
    exact foldl_addToIndex_self a.uid (SuperarrayMemory.indexKeys a) _ _ hk

/-- Witness for C8: storing the tag-`ka` record into the empty store. -/
theorem store_addonly_witness :
    (({} : SuperarrayMemory).store tieAtomA).get tieAtomA.uid = some tieAtomA
    ∧ tieAtomA.uid ∈ (({} : SuperarrayMemory).store tieAtomA).indexLookup "ka" := by
  have h := store_addonly {} tieAtomA
  exact ⟨h.1, h.2.2 "ka" (by with_unfolding_all decide)⟩

-- ===========================================================================
-- C5: query
-- ===========================================================================

theorem mem_candidateUids_aux (s : SuperarrayMemory) :
    ∀ (ks : List String) (acc : List String) (u : String),
      u ∈ ks.foldl
          (fun acc dim =>
            match mapGet s.dimensionIndex dim with
            | none => acc
            | some ids => ids.foldl setAdd acc) acc
        ↔ u ∈ acc ∨ ∃ k ∈ ks, u ∈ s.indexLookup k := by
  intro ks
  induction ks with
  | nil => intro acc u; simp
  | cons k ks ih =>
    intro acc u
    rw [List.foldl_cons, ih]
    cases hk : mapGet s.dimensionIndex k with
    | none =>
      simp only [SuperarrayMemory.indexLookup, List.mem_cons]
      constructor
      · rintro (h | ⟨k', hk', hu⟩)
        · exact Or.inl h
        · exact Or.inr ⟨k', Or.inr hk', hu⟩
      · rintro (h | ⟨k', hk' | hk', hu⟩)
        · exact Or.inl h
        · subst hk'
          rw [hk] at hu
          simp at hu
        · exact Or.inr ⟨k', hk', hu⟩
    | some ids =>
      rw [mem_foldl_setAdd]
      simp only [SuperarrayMemory.indexLookup, List.mem_cons]
      constructor
      · rintro ((h | h) | ⟨k', hk', hu⟩)
        · exact Or.inl h
        · exact Or.inr ⟨k, Or.inl rfl, by rw [hk]; simpa using h⟩
        · exact Or.inr ⟨k', Or.inr hk', hu⟩
      · rintro (h | ⟨k', hk' | hk', hu⟩)
        · exact Or.inl (Or.inl h)
        · subst hk'
          rw [hk] at hu
          simp only [Option.getD_some] at hu
          exact Or.inl (Or.inr hu)
        · exact Or.inr ⟨k', hk', hu⟩

theorem mem_candidateUids (s : SuperarrayMemory) (ks : List String) (u : String) :
    u ∈ SuperarrayMemory.candidateUids s ks ↔ ∃ k ∈ ks, u ∈ s.indexLookup k := by
  unfold SuperarrayMemory.candidateUids
  rw [mem_candidateUids_aux]
  simp

theorem mem_candidateRecords (s : SuperarrayMemory) (ks : List String) (t : ℚ)
    (a : MemoryAtom) :
    a ∈ SuperarrayMemory.candidateRecords s ks t
      ↔ ∃ uid, (∃ k ∈ ks, uid ∈ s.indexLookup k)
          ∧ mapGet s.atoms uid = some a
          ∧ t ≤ SuperarrayMemory.scoreOf a := by
  unfold SuperarrayMemory.candidateRecords
  rw [List.mem_filterMap]
  constructor
  · rintro ⟨uid, hu, hf⟩
    refine ⟨uid, (mem_candidateUids s ks uid).mp hu, ?_⟩
    cases hg : mapGet s.atoms uid with
    | none => rw [hg] at hf; simp at hf
    | some atom =>
      rw [hg] at hf
      simp only at hf
      split_ifs at hf with ht
      simp only [Option.some.injEq] at hf
      subst hf
      exact ⟨rfl, ht⟩
  · rintro ⟨uid, hk, hg, ht⟩
    refine ⟨uid, (mem_candidateUids s ks uid).mpr hk, ?_⟩
    rw [hg]
    simp [ht]

/-- C5 (amended): `query` returns exactly the records that are indexed
under at least one of the active keys and meet the threshold, in
descending `activation_score` order; records of equal score appear in
candidate-scan order — the order in which their uid is first
encountered while scanning the given keys in order (and each key's
indexed uids in indexing order) — not in store-insertion order. -/
theorem query_characterization (s : SuperarrayMemory) (ks : List String) (t : ℚ) :
    (∀ a, a ∈ s.query ks t
        ↔ ∃ uid, (∃ k ∈ ks, uid ∈ s.indexLookup k)
            ∧ mapGet s.atoms uid = some a ∧ t ≤ SuperarrayMemory.scoreOf a)
    ∧ (s.query ks t).Pairwise
        (fun a b => SuperarrayMemory.scoreOf b ≤ SuperarrayMemory.scoreOf a)
    ∧ ∀ v, (s.query ks t).filter
            (fun a => decide (SuperarrayMemory.scoreOf a = v))
        = (SuperarrayMemory.candidateRecords s ks t).filter
            (fun a => decide (SuperarrayMemory.scoreOf a = v)) := by
  refine ⟨?_, ?_, ?_⟩
  · intro a
    unfold SuperarrayMemory.query
    rw [mem_sortByDesc]
    exact mem_candidateRecords s ks t a
  · unfold SuperarrayMemory.query
    exact pairwise_sortByDesc _ _
  · intro v
    unfold SuperarrayMemory.query
    exact filter_sortByDesc _ _ _

/-- Witness for C5's amended theorem at the two-record tie store. -/
theorem query_characterization_witness :
    (memTie.query ["kb", "ka"] 0).Pairwise
      (fun a b => SuperarrayMemory.scoreOf b ≤ SuperarrayMemory.scoreOf a) :=
  (query_characterization memTie ["kb", "ka"] 0).2.1

/-- C5 counterexample: with records `a` (tag `ka`) then `b` (tag `kb`)
of equal score, `query(["kb","ka"], 0)` returns `[b, a]` — candidate
scan order — while the claim's store-insertion tie-break predicts
`[a, b]`. -/
theorem query_tie_break_counterexample :
    memTie.atoms.map Prod.fst = ["a", "b"]
    ∧ SuperarrayMemory.scoreOf tieAtomA = SuperarrayMemory.scoreOf tieAtomB
    ∧ memTie.query ["kb", "ka"] 0 = [tieAtomB, tieAtomA]
    ∧ memTie.query ["kb", "ka"] 0 ≠ [tieAtomA, tieAtomB] := by
  with_unfolding_all decide

-- ===========================================================================
-- C6: hierarchical edge discovery
-- ===========================================================================

theorem mem_getWormholes_pushWormhole (net : WormholeMap) (w x : Wormhole)
    (u : String) (h : x ∈ getWormholes net u) :
    x ∈ getWormholes (pushWormhole net w) u := by
  unfold pushWormhole getWormholes at *
  rw [mapGet_mapSet]
  split_ifs with he
  · subst he
    simp only [Option.getD_some]
    exact List.mem_append_left _ h
  · exact h

theorem pushWormhole_self (net : WormholeMap) (w : Wormhole) :
    w ∈ getWormholes (pushWormhole net w) w.fromUid := by
  unfold pushWormhole getWormholes
  rw [mapGet_mapSet]
  simp

theorem mem_createWormhole_mono (net : WormholeMap) (w x : Wormhole)
    (u : String) (h : x ∈ getWormholes net u) :
    x ∈ getWormholes (createWormhole net w) u := by
  unfold createWormhole
  dsimp only
  split_ifs with hb
  · exact mem_getWormholes_pushWormhole _ _ _ _
      (mem_getWormholes_pushWormhole _ _ _ _ h)
  · exact mem_getWormholes_pushWormhole _ _ _ _ h

theorem createWormhole_self (net : WormholeMap) (w : Wormhole) :
    ({ w with traversalCount := 0 } : Wormhole)
      ∈ getWormholes (createWormhole net w) w.fromUid := by
  unfold createWormhole
  dsimp only
  split_ifs with hb
  · exact mem_getWormholes_pushWormhole _ _ _ _ (pushWormhole_self _ _)
  · exact pushWormhole_self _ _

theorem discoverSemanticWormhole_mono (net : WormholeMap) (a b : MemoryAtom)
    (x : Wormhole) (u : String) (h : x ∈ getWormholes net u) :
    x ∈ getWormholes (discoverSemanticWormhole net a b) u := by
  unfold discoverSemanticWormhole
  dsimp only
  split_ifs with hc
  · exact mem_createWormhole_mono _ _ _ _ h
  · exact h

theorem discoverTemporalWormhole_mono (net : WormholeMap) (a b : MemoryAtom)
    (x : Wormhole) (u : String) (h : x ∈ getWormholes net u) :
    x ∈ getWormholes (discoverTemporalWormhole net a b) u := by
  unfold discoverTemporalWormhole
  cases hta : a.time_start with
  | none => exact h
  | some ta =>
    cases htb : b.time_start with
    | none => exact h
    | some tb =>
      dsimp only
      split_ifs with hc
      · exact mem_createWormhole_mono _ _ _ _ h
      · exact h

theorem discoverCausalWormhole_mono (net : WormholeMap) (a b : MemoryAtom)
    (x : Wormhole) (u : String) (h : x ∈ getWormholes net u) :
    x ∈ getWormholes (discoverCausalWormhole net a b) u := by
  unfold discoverCausalWormhole
  dsimp only
  split_ifs with hc
  · exact mem_createWormhole_mono _ _ _ _ h
  · exact h

theorem discoverEntityWormhole_mono (net : WormholeMap) (a b : MemoryAtom)
    (x : Wormhole) (u : String) (h : x ∈ getWormholes net u) :
    x ∈ getWormholes (discoverEntityWormhole net a b) u := by
  unfold discoverEntityWormhole
  dsimp only
  split_ifs with hc
  · exact mem_createWormhole_mono _ _ _ _ h
  · exact h

theorem discoverHierarchicalWormhole_mono (net : WormholeMap) (a b : MemoryAtom)
    (x : Wormhole) (u : String) (h : x ∈ getWormholes net u) :
    x ∈ getWormholes (discoverHierarchicalWormhole net a b) u := by
  unfold discoverHierarchicalWormhole
  split_ifs with hc
  · exact mem_createWormhole_mono _ _ _ _ h
  · exact h

theorem discoverPair_mono (net : WormholeMap) (a b : MemoryAtom)
    (x : Wormhole) (u : String) (h : x ∈ getWormholes net u) :
    x ∈ getWormholes (discoverPair net a b) u := by
  unfold discoverPair
  exact discoverHierarchicalWormhole_mono _ _ _ _ _
    (discoverEntityWormhole_mono _ _ _ _ _
      (discoverCausalWormhole_mono _ _ _ _ _
        (discoverTemporalWormhole_mono _ _ _ _ _
          (discoverSemanticWormhole_mono _ _ _ _ _ h))))

theorem foldl_discoverPair_mono (a : MemoryAtom) (l : List MemoryAtom) :
    ∀ (net : WormholeMap) (x : Wormhole) (u : String),
      x ∈ getWormholes net u →
      x ∈ getWormholes (l.foldl (fun n b => discoverPair n a b) net) u := by
  induction l with
  | nil => exact fun _ _ _ h => h
  | cons b rest ih =>
    intro net x u h
    rw [List.foldl_cons]
    exact ih _ _ _ (discoverPair_mono net a b x u h)

theorem discoverLoop_mono (l : List MemoryAtom) :
    ∀ (net : WormholeMap) (x : Wormhole) (u : String),
      x ∈ getWormholes net u → x ∈ getWormholes (discoverLoop net l) u := by
  induction l with
  | nil => exact fun _ _ _ h => h
  | cons a rest ih =>
    intro net x u h
    simp only [discoverLoop]
    exact ih _ _ _ (foldl_discoverPair_mono a rest net x u h)

theorem discoverPair_hier (net : WormholeMap) (a b : MemoryAtom)
    (hpar : b.parent_uid = some a.uid) :
    ∃ w, w ∈ getWormholes (discoverPair net a b) a.uid
      ∧ w.fromUid = a.uid ∧ w.toUid = b.uid
      ∧ w.type = WormholeType.hierarchical ∧ w.strength = 1
      ∧ w.bidirectional = false := by
  unfold discoverPair discoverHierarchicalWormhole
  rw [if_pos hpar]
  exact ⟨_, createWormhole_self _ _, rfl, rfl, rfl, rfl, rfl⟩

theorem foldl_discoverPair_hier (a b : MemoryAtom)
    (hpar : b.parent_uid = some a.uid) (l₂ l₃ : List MemoryAtom)
    (net : WormholeMap) :
    ∃ w, w ∈ getWormholes
          ((l₂ ++ b :: l₃).foldl (fun n x => discoverPair n a x) net) a.uid
      ∧ w.fromUid = a.uid ∧ w.toUid = b.uid
      ∧ w.type = WormholeType.hierarchical ∧ w.strength = 1
      ∧ w.bidirectional = false := by
  rw [List.foldl_append, List.foldl_cons]
  obtain ⟨w, hw, hprops⟩ :=
    discoverPair_hier (l₂.foldl (fun n x => discoverPair n a x) net) a b hpar
  exact ⟨w, foldl_discoverPair_mono a l₃ _ _ _ hw, hprops⟩

theorem discoverLoop_hier (a b : MemoryAtom)
    (hpar : b.parent_uid = some a.uid) :
    ∀ (l₁ l₂ l₃ : List MemoryAtom) (net : WormholeMap),
      ∃ w, w ∈ getWormholes
            (discoverLoop net (l₁ ++ a :: (l₂ ++ b :: l₃))) a.uid
        ∧ w.fromUid = a.uid ∧ w.toUid = b.uid
        ∧ w.type = WormholeType.hierarchical ∧ w.strength = 1
        ∧ w.bidirectional = false := by
  intro l₁
  induction l₁ with
  | nil =>
    intro l₂ l₃ net
    simp only [List.nil_append, discoverLoop]
    obtain ⟨w, hw, hprops⟩ := foldl_discoverPair_hier a b hpar l₂ l₃ net
    exact ⟨w, discoverLoop_mono _ _ _ _ hw, hprops⟩
  | cons x l₁ ih =>
    intro l₂ l₃ net
    simp only [List.cons_append, discoverLoop]
    exact ih l₂ l₃ _

/-- C6 (amended): after edge discovery runs, for every pair of records A
and B present in the store such that A's entry *precedes* B's in the
store's enumeration order and B's `parent_uid` equals A's `uid`, the
graph contains a one-directional hierarchical edge A→B with strength
1.0.  (The orientation check is only applied to pairs in enumeration
order, so a child stored before its parent gains no edge — see the
counterexample.) -/
theorem discovery_hierarchical_ordered (mem : SuperarrayMemory)
    (l₁ l₂ l₃ : List MemoryAtom) (a b : MemoryAtom)
    (hall : mem.all = l₁ ++ a :: (l₂ ++ b :: l₃))
    (hpar : b.parent_uid = some a.uid) :
    ∃ w, w ∈ getWormholes (discoverWormholes [] mem) a.uid
      ∧ w.fromUid = a.uid ∧ w.toUid = b.uid
      ∧ w.type = WormholeType.hierarchical ∧ w.strength = 1
      ∧ w.bidirectional = false := by
  unfold discoverWormholes
  rw [hall]
  exact discoverLoop_hier a b hpar l₁ l₂ l₃ []

/-- Witness for C6's amended theorem: parent stored before child. -/
theorem discovery_hierarchical_ordered_witness :
    ∃ w, w ∈ getWormholes (discoverWormholes [] memParentFirst) parentAtom.uid
      ∧ w.fromUid = parentAtom.uid ∧ w.toUid = childAtom.uid
      ∧ w.type = WormholeType.hierarchical ∧ w.strength = 1
      ∧ w.bidirectional = false :=
  discovery_hierarchical_ordered memParentFirst [] [] [] parentAtom childAtom
    (by with_unfolding_all decide) rfl

/-- C6 counterexample: the claim quantifies over every pair of distinct
records; with the child stored before the parent, the parent-child pair
is only ever checked in the orientation (child, parent), so no
hierarchical edge is created at all. -/
theorem discovery_hierarchical_counterexample :
    childAtom.parent_uid = some parentAtom.uid
    ∧ parentAtom ∈ memChildFirst.all
    ∧ childAtom ∈ memChildFirst.all
    ∧ parentAtom ≠ childAtom
    ∧ getWormholes (discoverWormholes [] memChildFirst) parentAtom.uid = [] := by
  with_unfolding_all decide

-- ===========================================================================
-- Navigation lemmas (C2, C3, C7)
-- ===========================================================================

theorem jsOrNat_pos (o : Option ℕ) (d : ℕ) (hd : 0 < d) : 0 < jsOrNat o d := by
  cases o with
  | none => exact hd
  | some n =>
    simp only [jsOrNat]
    split_ifs with h
    · exact hd
    · omega

theorem jsOrNat_some (k d : ℕ) (hk : k ≠ 0) : jsOrNat (some k) d = k := by
  simp [jsOrNat, hk]

theorem empty_memory_wf :
    ∀ (u : String) (a : MemoryAtom),
      ({} : SuperarrayMemory).get u = some a → a.uid = u := by
  intro u a h
  simp [SuperarrayMemory.get, mapGet] at h

theorem store_preserves_wf (s : SuperarrayMemory) (atom : MemoryAtom)
    (h : ∀ u a, s.get u = some a → a.uid = u) :
    ∀ u a, (s.store atom).get u = some a → a.uid = u := by
  intro u a ha
  unfold SuperarrayMemory.store SuperarrayMemory.get at ha
  rw [mapGet_mapSet] at ha
  split_ifs at ha with he
  · simp only [Option.some.injEq] at ha
    subst ha
    exact he
  · exact h u a ha

theorem selLoop_split (net : WormholeMap) (mem : SuperarrayMemory)
    (sel : ℕ → List Wormhole → Option Wormhole) (tf : Option WormholeType)
    (dl : Bool) (ms md : ℕ)
    (hsel : ∀ i l w, sel i l = some w → w ∈ l)
    (hWF : ∀ u a, mem.get u = some a → a.uid = u) :
    ∀ (fuel : ℕ) (cur : String) (vis : List String)
      (steps : List (Wormhole × MemoryAtom)) (idx : ℕ),
      ∃ ns, selLoop net mem sel tf dl ms md fuel cur vis steps idx = steps ++ ns
        ∧ (ns.map (fun p => p.2.uid)).Nodup
        ∧ (∀ p ∈ ns, p.2.uid ∉ vis) := by
  intro fuel
  induction fuel with
  | zero =>
    intro cur vis steps idx
    exact ⟨[], by simp [selLoop], by simp, by simp⟩
  | succ fuel ih =>
    intro cur vis steps idx
    rw [selLoop]
    split_ifs with h1 h2
    · exact ⟨[], by simp, by simp, by simp⟩
    · exact ⟨[], by simp, by simp, by simp⟩
    · cases hs : sel idx (selCandidates net tf vis cur) with
      | none => exact ⟨[], by simp [hs], by simp, by simp⟩
      | some w =>
        have hw := hsel _ _ _ hs
        have hcond := List.of_mem_filter hw
        have hnv : w.toUid ∉ vis := by
          have := (Bool.and_eq_true _ _).mp hcond
          exact of_decide_eq_true this.2
        cases hg : mem.get w.toUid with
        | none => exact ⟨[], by simp [hs, hg], by simp, by simp⟩
        | some dest =>
          have hdu : dest.uid = w.toUid := hWF _ _ hg
          obtain ⟨ns', heq, hnd, hnv'⟩ :=
            ih w.toUid (vis ++ [w.toUid]) (steps ++ [(w, dest)]) (idx + 1)
          refine ⟨(w, dest) :: ns', ?_, ?_, ?_⟩
          · simp only [hs, hg]
            rw [heq, List.append_assoc]
            rfl
          · rw [List.map_cons, List.nodup_cons]
            refine ⟨?_, hnd⟩
            intro hmem
            obtain ⟨p, hp, hpu⟩ := List.mem_map.mp hmem
            have := hnv' p hp
            rw [hpu] at this
            exact this (by rw [hdu]; exact List.mem_append_right _ (by simp))
          · intro p hp
            rcases List.mem_cons.mp hp with rfl | hp'
            · rw [hdu]
              exact hnv
            · intro hmem
              exact hnv' p hp' (List.mem_append_left _ hmem)

theorem selLoop_length (net : WormholeMap) (mem : SuperarrayMemory)
    (sel : ℕ → List Wormhole → Option Wormhole) (tf : Option WormholeType)
    (dl : Bool) (ms md : ℕ) :
    ∀ (fuel : ℕ) (cur : String) (vis : List String)
      (steps : List (Wormhole × MemoryAtom)) (idx : ℕ),
      (selLoop net mem sel tf dl ms md fuel cur vis steps idx).length
        ≤ max steps.length (ms - 1) := by
  intro fuel
  induction fuel with
  | zero =>
    intro cur vis steps idx
    simp [selLoop, Nat.le_max_left]
  | succ fuel ih =>
    intro cur vis steps idx
    rw [selLoop]
    split_ifs with h1 h2
    · exact Nat.le_max_left _ _
    · exact Nat.le_max_left _ _
    · cases hs : sel idx (selCandidates net tf vis cur) with
      | none =>
        simp only [hs]
        exact Nat.le_max_left _ _
      | some w =>
        cases hg : mem.get w.toUid with
        | none =>
          simp only [hs, hg]
          exact Nat.le_max_left _ _
        | some dest =>
          simp only [hs, hg]
          have h := ih w.toUid (vis ++ [w.toUid]) (steps ++ [(w, dest)]) (idx + 1)
          rw [List.length_append] at h
          simp only [List.length_cons, List.length_nil] at h
          omega

theorem selLoop_path_props (net : WormholeMap) (mem : SuperarrayMemory)
    (sel : ℕ → List Wormhole → Option Wormhole) (tf : Option WormholeType)
    (dl : Bool) (ms md fuel idx : ℕ) (cur : String) (vis : List String)
    (start : MemoryAtom)
    (hsel : ∀ i l w, sel i l = some w → w ∈ l)
    (hWF : ∀ u a, mem.get u = some a → a.uid = u)
    (hs : start.uid ∈ vis) :
    (((start :: (selLoop net mem sel tf dl ms md fuel cur vis [] idx).map
        (fun p => p.2)).map (fun a => a.uid)).Nodup)
    ∧ (start :: (selLoop net mem sel tf dl ms md fuel cur vis [] idx).map
        (fun p => p.2)).length ≤ max 1 ms := by
  obtain ⟨ns, heq, hnd, hnv⟩ :=
    selLoop_split net mem sel tf dl ms md hsel hWF fuel cur vis [] idx
  rw [List.nil_append] at heq
  rw [heq]
  constructor
  · simp only [List.map_cons, List.map_map, List.nodup_cons]
    constructor
    · intro hmem
      obtain ⟨p, hp, hpu⟩ := List.mem_map.mp hmem
      apply hnv p hp
      rw [← hpu] at hs
      exact hs
    · exact hnd
  · have hl := selLoop_length net mem sel tf dl ms md fuel cur vis [] idx
    rw [heq] at hl
    simp only [List.length_nil, Nat.max_eq_right (Nat.zero_le _)] at hl
    simp only [List.length_cons, List.length_map]
    omega

theorem bfsStep_inv (mem : SuperarrayMemory) (depth : ℕ)
    (hWF : ∀ u a, mem.get u = some a → a.uid = u) (st : BfsState)
    (w : Wormhole) (h1 : (st.path.map (fun a => a.uid)).Nodup)
    (h2 : ∀ a ∈ st.path, a.uid ∈ st.visited) :
    ((bfsStep mem depth st w).path.map (fun a => a.uid)).Nodup
      ∧ ∀ a ∈ (bfsStep mem depth st w).path,
          a.uid ∈ (bfsStep mem depth st w).visited := by
  unfold bfsStep
  split_ifs with hv
  · exact ⟨h1, h2⟩
  · cases hg : mem.get w.toUid with
    | none => exact ⟨h1, h2⟩
    | some dest =>
      have hdu : dest.uid = w.toUid := hWF _ _ hg
      constructor
      · rw [List.map_append, List.nodup_append]
        refine ⟨h1, by simp, ?_⟩
        intro x hx hx'
        simp only [List.map_cons, List.map_nil, List.mem_singleton] at hx'
        obtain ⟨a, ha, hau⟩ := List.mem_map.mp hx
        apply hv
        rw [← hdu, ← hx', ← hau]
        exact h2 a ha
      · intro a ha
        rcases List.mem_append.mp ha with h | h
        · exact List.mem_append_left _ (h2 a h)
        · simp only [List.mem_singleton] at h
          subst h
          rw [hdu]
          exact List.mem_append_right _ (by simp)

theorem bfsExpand_inv (mem : SuperarrayMemory) (depth : ℕ)
    (hWF : ∀ u a, mem.get u = some a → a.uid = u) :
    ∀ (ws : List Wormhole) (st : BfsState),
      (st.path.map (fun a => a.uid)).Nodup →
      (∀ a ∈ st.path, a.uid ∈ st.visited) →
      ((bfsExpand mem depth st ws).path.map (fun a => a.uid)).Nodup
        ∧ ∀ a ∈ (bfsExpand mem depth st ws).path,
            a.uid ∈ (bfsExpand mem depth st ws).visited := by
  intro ws
  induction ws with
  | nil => intro st h1 h2; exact ⟨h1, h2⟩
  | cons w ws ih =>
    intro st h1 h2
    obtain ⟨g1, g2⟩ := bfsStep_inv mem depth hWF st w h1 h2
    simpa only [bfsExpand, List.foldl_cons] using ih (bfsStep mem depth st w) g1 g2

theorem bfsLoop_inv (net : WormholeMap) (mem : SuperarrayMemory) (ms md : ℕ)
    (hWF : ∀ u a, mem.get u = some a → a.uid = u) :
    ∀ (fuel : ℕ) (st : BfsState),
      (st.path.map (fun a => a.uid)).Nodup →
      (∀ a ∈ st.path, a.uid ∈ st.visited) →
      ((bfsLoop net mem ms md fuel st).path.map (fun a => a.uid)).Nodup := by
  intro fuel
  induction fuel with
  | zero => intro st h1 h2; simpa [bfsLoop] using h1
  | succ fuel ih =>
    intro st h1 h2
    rw [bfsLoop]
    cases hq : st.queue with
    | nil => exact h1
    | cons hd rest =>
      obtain ⟨uid, depth⟩ := hd
      dsimp only
      split_ifs with hms hmd
      · exact h1
      · exact ih _ h1 h2
      · obtain ⟨e1, e2⟩ := bfsExpand_inv mem depth hWF (getWormholes net uid)
          { st with queue := rest } h1 h2
        exact ih _ e1 e2

theorem breadthFirst_nodup (net : WormholeMap) (mem : SuperarrayMemory)
    (ctx : NavigationContext) (opts : NavigationOptions)
    (hWF : ∀ u a, mem.get u = some a → a.uid = u)
    (hstart : ctx.currentAtom.uid ∈ ctx.visitedAtoms) :
    ((breadthFirstNavigation net mem ctx opts).path.map
      (fun a => a.uid)).Nodup := by
  simp only [breadthFirstNavigation]
  apply bfsLoop_inv net mem _ _ hWF
  · simp
  · intro a ha
    simp only [List.mem_singleton] at ha
    subst ha
    exact hstart

theorem depthFirst_path_empty (net : WormholeMap) (mem : SuperarrayMemory)
    (ctx : NavigationContext) (opts : NavigationOptions)
    (hstart : ctx.currentAtom.uid ∈ ctx.visitedAtoms) :
    (depthFirstNavigation net mem ctx opts).path = [] := by
  simp only [depthFirstNavigation, dfsGo]
  cases hg : mem.get ctx.currentAtom.uid <;> split_ifs <;> rfl

theorem sortByDesc_head?_sel {α : Type} (key : α → ℚ) :
    ∀ (l : List α) (w : α), (sortByDesc key l).head? = some w → w ∈ l :=
  fun l w h => (sortByDesc_head_max key l w h).1

/-- C2 (amended): for every traversal strategy and every call to
`navigate`, no record uid occurs more than once in the returned path
(assuming the well-formed store invariant that `get u` returns a record
whose uid is `u`, which `store` maintains); and for every strategy
*other than breadth_first*, with `max_steps = k ≥ 1`, the path contains
at most `k + 1` records.  `breadth_first` can exceed the bound because
it appends all unvisited neighbours of a dequeued node without
re-checking the step bound (see the counterexample); a zero or missing
`max_steps` falls back to the default 20 via JS `||`. -/
theorem navigate_path_bounds (rands : ℕ → ℕ) (net : WormholeMap)
    (mem : SuperarrayMemory) (startUid : String) (strat : NavigationStrategy)
    (opts : NavigationOptions)
    (hWF : ∀ u a, mem.get u = some a → a.uid = u) :
    ((navigate rands net mem startUid strat opts).path.map
        (fun a => a.uid)).Nodup
    ∧ ∀ k, strat ≠ NavigationStrategy.breadth_first → opts.maxSteps = some k →
        1 ≤ k →
        (navigate rands net mem startUid strat opts).path.length ≤ k + 1 := by
  unfold navigate
  cases hg : mem.get startUid with
  | none => exact ⟨by simp, by intro k _ _ _; simp⟩
  | some startAtom =>
    have hsu : startAtom.uid = startUid := hWF _ _ hg
    have hstart : startAtom.uid ∈ [startUid] := by
      rw [hsu]
      simp
    have hms : ∀ k : ℕ, opts.maxSteps = some k → 1 ≤ k →
        jsOrNat opts.maxSteps 20 = k := by
      intro k hk hk1
      rw [hk]
      exact jsOrNat_some k 20 (by omega)
    cases strat with
    | breadth_first =>
      refine ⟨?_, ?_⟩
      · exact breadthFirst_nodup net mem _ opts hWF hstart
      · intro k hne
        exact absurd rfl hne
    | depth_first =>
      have hempty := depthFirst_path_empty net mem
        { currentAtom := startAtom, spinVector := opts.spinVector
          visitedAtoms := [startUid], maxDepth := jsOrNat opts.maxDepth 10
          currentDepth := 0 } opts hstart
      refine ⟨?_, ?_⟩
      · show ((depthFirstNavigation net mem
            { currentAtom := startAtom, spinVector := opts.spinVector
              visitedAtoms := [startUid], maxDepth := jsOrNat opts.maxDepth 10
              currentDepth := 0 } opts).path.map (fun a => a.uid)).Nodup
        rw [hempty]
        simp
      · intro k _ _ _
        show (depthFirstNavigation net mem
            { currentAtom := startAtom, spinVector := opts.spinVector
              visitedAtoms := [startUid], maxDepth := jsOrNat opts.maxDepth 10
              currentDepth := 0 } opts).path.length ≤ k + 1
        rw [hempty]
        simp
    | best_first =>
      obtain ⟨hn, hlen⟩ := selLoop_path_props net mem
        (fun _ cands => (sortByDesc (fun w => w.strength) cands).head?)
        none true (jsOrNat opts.maxSteps 20) (jsOrNat opts.maxDepth 10)
        (jsOrNat opts.maxSteps 20) 0 startAtom.uid [startUid] startAtom
        (fun _ l w h => sortByDesc_head?_sel _ l w h) hWF hstart
      refine ⟨hn, ?_⟩
      intro k _ hk hk1
      have hmax : max 1 k = k := Nat.max_eq_right hk1
      have hfin : max 1 (jsOrNat opts.maxSteps 20) ≤ k + 1 := by
        rw [hms k hk hk1, hmax]
        exact Nat.le_succ k
      exact le_trans hlen hfin
    | random_walk =>
      obtain ⟨hn, hlen⟩ := selLoop_path_props net mem
        (fun stepIdx cands => cands.get? (rands stepIdx % cands.length))
        none false (jsOrNat opts.maxSteps 20) (jsOrNat opts.maxDepth 10)
        (jsOrNat opts.maxSteps 20) 0 startAtom.uid [startUid] startAtom
        (fun _ l w h => List.get?_mem h) hWF hstart
      refine ⟨hn, ?_⟩
      intro k _ hk hk1
      have hmax : max 1 k = k := Nat.max_eq_right hk1
      have hfin : max 1 (jsOrNat opts.maxSteps 20) ≤ k + 1 := by
        rw [hms k hk hk1, hmax]
        exact Nat.le_succ k
      exact le_trans hlen hfin
    | guided =>
      show ((guidedNavigation net mem
          { currentAtom := startAtom, spinVector := opts.spinVector
            visitedAtoms := [startUid], maxDepth := jsOrNat opts.maxDepth 10
            currentDepth := 0 } opts).path.map (fun a => a.uid)).Nodup
        ∧ ∀ k, NavigationStrategy.guided ≠ NavigationStrategy.breadth_first →
            opts.maxSteps = some k → 1 ≤ k →
            (guidedNavigation net mem
              { currentAtom := startAtom, spinVector := opts.spinVector
                visitedAtoms := [startUid], maxDepth := jsOrNat opts.maxDepth 10
                currentDepth := 0 } opts).path.length ≤ k + 1
      simp only [guidedNavigation]
      cases hsv : opts.spinVector with
      | none =>
        obtain ⟨hn, hlen⟩ := selLoop_path_props net mem
          (fun _ cands => (sortByDesc (fun w => w.strength) cands).head?)
          none true (jsOrNat opts.maxSteps 20) (jsOrNat opts.maxDepth 10)
          (jsOrNat opts.maxSteps 20) 0 startAtom.uid [startUid] startAtom
          (fun _ l w h => sortByDesc_head?_sel _ l w h) hWF hstart
        refine ⟨hn, ?_⟩
        intro k _ hk hk1
        have hmax : max 1 k = k := Nat.max_eq_right hk1
        have hfin : max 1 (jsOrNat opts.maxSteps 20) ≤ k + 1 := by
          rw [hms k hk hk1, hmax]
          exact Nat.le_succ k
        exact le_trans hlen hfin
      | some sv =>
        obtain ⟨hn, hlen⟩ := selLoop_path_props net mem
          (fun _ cands => (sortByDesc (guidedScore mem) cands).head?)
          none false (jsOrNat opts.maxSteps 20) (jsOrNat opts.maxDepth 10)
          (jsOrNat opts.maxSteps 20) 0 startAtom.uid [startUid] startAtom
          (fun _ l w h => sortByDesc_head?_sel _ l w h) hWF hstart
        refine ⟨hn, ?_⟩
        intro k _ hk hk1
        have hmax : max 1 k = k := Nat.max_eq_right hk1
        have hfin : max 1 (jsOrNat opts.maxSteps 20) ≤ k + 1 := by
          rw [hms k hk hk1, hmax]
          exact Nat.le_succ k
        exact le_trans hlen hfin
    | surprise =>
      obtain ⟨hn, hlen⟩ := selLoop_path_props net mem
        (fun _ cands => surprisePick cands)
        none false (jsOrNat opts.maxSteps 20) (jsOrNat opts.maxDepth 10)
        (jsOrNat opts.maxSteps 20) 0 startAtom.uid [startUid] startAtom
        (fun _ l w h => sortByDesc_head?_sel surpriseScore l w h) hWF hstart
      refine ⟨hn, ?_⟩
      intro k _ hk hk1
      have hmax : max 1 k = k := Nat.max_eq_right hk1
      have hfin : max 1 (jsOrNat opts.maxSteps 20) ≤ k + 1 := by
        rw [hms k hk hk1, hmax]
        exact Nat.le_succ k
      exact le_trans hlen hfin
    | temporal =>
      obtain ⟨hn, hlen⟩ := selLoop_path_props net mem
        (fun _ cands => (sortByDesc (fun w => w.strength) cands).head?)
        (some WormholeType.temporal) false (jsOrNat opts.maxSteps 20)
        (jsOrNat opts.maxDepth 10) (jsOrNat opts.maxSteps 20) 0
        startAtom.uid [startUid] startAtom
        (fun _ l w h => sortByDesc_head?_sel _ l w h) hWF hstart
      refine ⟨hn, ?_⟩
      intro k _ hk hk1
      have hmax : max 1 k = k := Nat.max_eq_right hk1
      have hfin : max 1 (jsOrNat opts.maxSteps 20) ≤ k + 1 := by
        rw [hms k hk hk1, hmax]
        exact Nat.le_succ k
      exact le_trans hlen hfin
    | causal =>
      obtain ⟨hn, hlen⟩ := selLoop_path_props net mem
        (fun _ cands => (sortByDesc (fun w => w.strength) cands).head?)
        (some WormholeType.causal) false (jsOrNat opts.maxSteps 20)
        (jsOrNat opts.maxDepth 10) (jsOrNat opts.maxSteps 20) 0
        startAtom.uid [startUid] startAtom
        (fun _ l w h => sortByDesc_head?_sel _ l w h) hWF hstart
      refine ⟨hn, ?_⟩
      intro k _ hk hk1
      have hmax : max 1 k = k := Nat.max_eq_right hk1
      have hfin : max 1 (jsOrNat opts.maxSteps 20) ≤ k + 1 := by
        rw [hms k hk hk1, hmax]
        exact Nat.le_succ k
      exact le_trans hlen hfin


/-- Witness for C2's amended theorem: best-first on the star graph with
`max_steps = 2`. -/
theorem navigate_path_bounds_witness :
    ((navigate (fun _ => 0) starNet memFour "s" NavigationStrategy.best_first
        { maxSteps := some 2 }).path.map (fun a => a.uid)).Nodup
    ∧ (navigate (fun _ => 0) starNet memFour "s" NavigationStrategy.best_first
        { maxSteps := some 2 }).path.length ≤ 2 + 1 := by
  have hWF : ∀ u a, memFour.get u = some a → a.uid = u :=
    store_preserves_wf _ _ (store_preserves_wf _ _ (store_preserves_wf _ _
      (store_preserves_wf _ _ empty_memory_wf)))
  have h := navigate_path_bounds (fun _ => 0) starNet memFour "s"
    NavigationStrategy.best_first { maxSteps := some 2 } hWF
  exact ⟨h.1, h.2 2 (by decide) rfl (by omega)⟩

/-- C2 counterexample: breadth-first on a star graph with three edges
from the start and `max_steps = 2` returns a path of 4 records,
exceeding the claimed bound `k + 1 = 3` (the inner expansion loop never
re-checks the step bound). -/
theorem bfs_exceeds_step_bound :
    (navigate (fun _ => 0) starNet memFour "s" NavigationStrategy.breadth_first
      { maxSteps := some 2 }).path.length = 4
    ∧ 2 + 1 < 4 := by
  with_unfolding_all decide

/-- C3: evaluation at the failing input.  The start uid is pre-marked
visited when the navigation context is built, and the recursive
depth-first helper bails out on visited uids, so depth-first navigation
returns an *empty* path even though the start record exists — while its
own insight string claims it "explored 0 atoms" and the spec requires
the start record to be included.  (The missing-record half of the claim
does hold: an unknown start uid yields an empty path with the
diagnostic note and no error.) -/
theorem depth_first_loses_start :
    memSingle.get "s" = some (bareAtom "s")
    ∧ (navigate (fun _ => 0) [] memSingle "s" NavigationStrategy.depth_first
        {}).path = []
    ∧ (navigate (fun _ => 0) [] memSingle "s" NavigationStrategy.depth_first
        {}).insights = ["Explored 0 atoms depth-first"]
    ∧ (navigate (fun _ => 0) [] memSingle "zz" NavigationStrategy.depth_first
        {}).path = []
    ∧ (navigate (fun _ => 0) [] memSingle "zz" NavigationStrategy.depth_first
        {}).insights = ["Start atom not found"] := by
  with_unfolding_all decide

-- ===========================================================================
-- C7: surprise strategy scoring
-- ===========================================================================

/-- C7 (amended): in the surprise strategy every candidate edge is scored
as `0.4·(1−strength) + 0.4·(1−min(1, traversal_count/10)) + bonus`,
where `bonus = 0.3` for contrast/surprise/analogy edges and `0`
otherwise (the bonus is *added*, not multiplied by 0.3); the selector
returns a candidate of maximum score; and each step is recorded as a
surprise carrying the edge's unexpectedness value
`1 − min(1, traversal_count/10)`. -/
theorem surprise_strategy_spec :
    (∀ w, surpriseScore w = surpriseScoreSpec w)
    ∧ (∀ cands w, surprisePick cands = some w →
        w ∈ cands ∧ ∀ y ∈ cands, surpriseScore y ≤ surpriseScore w)
    ∧ ∀ (net : WormholeMap) (mem : SuperarrayMemory)
        (ctx : NavigationContext) (opts : NavigationOptions),
        (surpriseNavigation net mem ctx opts).surprises.map
            (fun s => s.wormhole)
          = (surpriseNavigation net mem ctx opts).wormholes
        ∧ (surpriseNavigation net mem ctx opts).surprises.map
            (fun s => s.unexpectedness)
          = (surpriseNavigation net mem ctx opts).wormholes.map
              unexpectednessOf := by
  refine ⟨?_, ?_, ?_⟩
  · intro w
    unfold surpriseScore surpriseScoreSpec unexpectednessOf
    split_ifs <;> ring
  · intro cands w h
    exact sortByDesc_head_max surpriseScore cands w h
  · intro net mem ctx opts
    simp only [surpriseNavigation, stepsResult]
    constructor
    · rw [List.map_map]
      rfl
    · rw [List.map_map, List.map_map]
      rfl

/-- Witness for C7's amended theorem: the selector picks the contrast
edge over the semantic edge, and its score is maximal. -/
theorem surprise_strategy_spec_witness :
    surpriseScore semanticEdge ≤ surpriseScore contrastEdge
    ∧ contrastEdge ∈ [contrastEdge, semanticEdge] := by
  have h := surprise_strategy_spec.2.1 [contrastEdge, semanticEdge] contrastEdge
    (by with_unfolding_all decide)
  exact ⟨h.2 semanticEdge (by simp), h.1⟩

/-- C7 counterexample: under the claim's formula (`… + 0.3·bonus` with
`bonus = 0.3`, i.e. a 0.09 bonus) the semantic edge (score 0.6) beats
the contrast edge (score 0.53), yet the code follows the contrast edge
(code scores 0.74 vs 0.6): the followed candidate does not maximise the
claimed score. -/
theorem surprise_claim_formula_counterexample :
    (navigate (fun _ => 0) surpriseNet memThree "s" NavigationStrategy.surprise
      { maxSteps := some 2 }).wormholes = [contrastEdge]
    ∧ semanticEdge ∈ getWormholes surpriseNet "s"
    ∧ semanticEdge.toUid ≠ "s"
    ∧ claimSurpriseScore contrastEdge < claimSurpriseScore semanticEdge := by
  with_unfolding_all decide

end Cli
